import Mathlib

/-!
Verification development for the Intersection DRQL pipeline.

Shallow embedding of:
* `src/drql/ast.rs` — the `Expr` tree and its `Display` rendering;
* `src/drql/lexer.rs` — the logos-generated lexer (`DrqlLexer`), modelled as a
  character-level maximal-munch lexer.  Token spans are omitted (no claim
  refers to them); error positions are kept.  Byte offsets in the source
  become character offsets here;
* the DRQL grammar (the repository's `src/grammar.lalrpop` is not part of the
  sources provided, so the parser is modelled from the spec, §4.3);
* `src/drql/interpreter.rs` — the tree-walking evaluator (async resolution
  becomes plain `Except`-valued functions, sequenced in the source's
  left-to-right order);
* `src/drql/scanner.rs` — `scan`, the regex `@\{(.+?)\}` applied with
  `find_iter` (leftmost, non-overlapping, lazy `.+?`, `.` not matching `\n`);
* `src/util/unionize_set.rs` — `unionize_set`, the bit-vector greedy set
  cover.  Bit-vectors over the per-call value index are represented by the
  `Finset` of values they denote (the index is a bijection built fresh per
  call, used only to pack values into bits); the `HashMap` of candidates is
  represented by its iteration sequence, an association list; the `while`
  loop becomes a fuel recursion whose fuel (total cardinality + 1) provably
  dominates the loop count, since every iteration clears a nonempty set.
-/

namespace Intersection

/-- User identities (`UserId`/`RoleId` are `u64` newtypes in the source;
identities are opaque, only equality matters, so we use `ℕ`). -/
abbrev UserId := Nat

/-! ## AST (`src/drql/ast.rs`) -/

/-- `Expr` from `src/drql/ast.rs`: four leaf kinds, three binary operators. -/
inductive Expr : Type where
  | Union : Expr → Expr → Expr
  | Intersection : Expr → Expr → Expr
  | Difference : Expr → Expr → Expr
  | StringLiteral : String → Expr
  | UnknownID : String → Expr
  | UserID : UserId → Expr
  | RoleID : UserId → Expr
deriving DecidableEq, Repr

/-! Decimal rendering of a `u64`/`ℕ` (Rust's `Display` for integers):
most-significant digit first. -/

/-- The decimal digits of `n`, most significant first (`"0"` for zero). -/
def charsOfNat (n : Nat) : List Char :=
  if n = 0 then ['0'] else ((Nat.digits 10 n).map Nat.digitChar).reverse

/-- Decimal value of a digit character. -/
def digitVal (c : Char) : Nat := c.toNat - 48

/-- Parse a most-significant-first digit string (Rust `str::parse::<u64>`,
minus the overflow check, which cannot fire on rendered `u64`s). -/
def natOfChars (l : List Char) : Nat :=
  l.foldl (fun acc c => 10 * acc + digitVal c) 0

/-! ## Rendering (`impl Display for Expr`, `src/drql/ast.rs` lines 31–53) -/

/-- Is `c` allowed in a bare (unquoted) rendered string literal?
Mirrors `char.is_ascii_alphanumeric() || char == '_'`. -/
def bareChar (c : Char) : Bool := c.isAlphanum || c = '_'

/-- The character stream produced by `Display for Expr`. -/
def render : Expr → List Char
  | .Union l r => '(' :: render l ++ ' ' :: '|' :: ' ' :: render r ++ [')']
  | .Intersection l r => '(' :: render l ++ ' ' :: '&' :: ' ' :: render r ++ [')']
  | .Difference l r => '(' :: render l ++ ' ' :: '-' :: ' ' :: render r ++ [')']
  | .StringLiteral s =>
      if s.toList.all bareChar then s.toList else '"' :: s.toList ++ ['"']
  | .UnknownID s => s.toList
  | .UserID n => '<' :: '@' :: charsOfNat n ++ ['>']
  | .RoleID n => '<' :: '@' :: '&' :: charsOfNat n ++ ['>']

/-- `Display for Expr` as a `String`. -/
def displayExpr (e : Expr) : String := String.mk (render e)

/-! ## Lexer (`src/drql/lexer.rs`) -/

/-- `LexicalError` from `src/drql/lexer.rs` (the `ParseIntError` payload is
dropped; offsets are character offsets). -/
inductive LexicalError : Type where
  | NoMatchingRule : LexicalError
  | UnknownToken : Nat → Char → LexicalError
  | UnterminatedStringLiteral : Nat → LexicalError
  | ParseIntError : LexicalError
deriving DecidableEq, Repr

/-- `Tok` from `src/drql/lexer.rs`. -/
inductive Tok : Type where
  | Plus | Minus | Pipe | Ampersand | LeftParen | RightParen
  | StringLiteral : String → Tok
  | IDLiteral : String → Tok
  | UserMention : String → Tok
  | RoleMention : String → Tok
deriving DecidableEq, Repr

/-- The logos skip rule `[ \t\r\n\f]+`. -/
def isWs (c : Char) : Bool :=
  c = ' ' || c = '\t' || c = '\r' || c = '\n' || c = '\x0c'

/-- `[a-zA-Z_]`, the first character of a bare identifier. -/
def identStart (c : Char) : Bool := c.isAlpha || c = '_'

/-- `[a-zA-Z0-9_]`, continuation characters of a bare identifier. -/
def identChar (c : Char) : Bool := c.isAlphanum || c = '_'

/-- Scan the inside of a quoted string literal, given the characters after
the opening quote; the flag records whether the previous character was a
still-open backslash (the `\\.` unit of the body regex is half-read).  The
regex body `([^"\\]|\\.)*` consumes either a non-quote-non-backslash
character or a backslash plus any character; the first unescaped quote
closes the literal.  Returns the raw inner slice (escapes are NOT
processed — the source keeps `slice[1..len-1]` verbatim) and the rest, or
`none` when no closing quote is reachable (`UnterminatedStringLiteral`). -/
def scanStringAux : Bool → List Char → Option (List Char × List Char)
  | _, [] => none
  | true, c :: rest =>
      (scanStringAux false rest).map fun p => (c :: p.1, p.2)
  | false, c :: rest =>
      if c = '"' then some ([], rest)
      else if c = '\\' then
        (scanStringAux true rest).map fun p => (c :: p.1, p.2)
      else (scanStringAux false rest).map fun p => (c :: p.1, p.2)

/-- Scan a string-literal body, from outside an escape. -/
def scanString (t : List Char) : Option (List Char × List Char) :=
  scanStringAux false t

/-- The tail of a mention literal, after `<@`, `<@&` or `<@!`: munch digits,
require a nonempty digit run and a closing `>`.  On failure the whole `<`
matches no rule, so an `UnknownToken` over the `<` is emitted and lexing
resumes right after it (`fullRest`).  `extra` is the number of delimiter
characters the successful token spans (`<@>` = 3, `<@&>`/`<@!>` = 4). -/
def mentionTail (mk : String → Tok) (p extra : Nat)
    (src fullRest : List Char) :
    Option ((LexicalError ⊕ Tok) × Nat × List Char) :=
  let ds := src.takeWhile Char.isDigit
  let rest' := src.dropWhile Char.isDigit
  if ds.length ≠ 0 ∧ rest'.head? = some '>' then
    some (.inr (mk (String.mk ds)), p + ds.length + extra, rest'.tail)
  else some (.inl (.UnknownToken p '<'), p + 1, fullRest)

/-- The token match at a position `p` already past any whitespace,
mirroring the logos rules of `Tok`.  The rule families are distinguished by
their first character, so maximal munch reduces to the per-family munches
below.  Returns the token-or-error, the position after it, and the
remaining characters; `none` at end of input. -/
def lexCore (p : Nat) : List Char →
    Option ((LexicalError ⊕ Tok) × Nat × List Char)
  | [] => none
  | c :: rest =>
      if c = '+' then some (.inr .Plus, p + 1, rest)
      else if c = '-' then some (.inr .Minus, p + 1, rest)
      else if c = '|' then some (.inr .Pipe, p + 1, rest)
      else if c = '&' then some (.inr .Ampersand, p + 1, rest)
      else if c = '(' then some (.inr .LeftParen, p + 1, rest)
      else if c = ')' then some (.inr .RightParen, p + 1, rest)
      else if c = '"' then
        -- string literals; an unreachable closing quote is
        -- `UnterminatedStringLiteral` at the opening offset
        match scanString rest with
        | some (inner, rest') =>
            some (.inr (.StringLiteral (String.mk inner)),
                  p + inner.length + 2, rest')
        | none =>
            some (.inl (.UnterminatedStringLiteral p), p + 1 + rest.length, [])
      else if c = '<' then
        -- mention literals `<@[0-9]+>`, `<@![0-9]+>`, `<@&[0-9]+>`
        -- (the `!` of a user mention is cosmetic, the payload is the digits)
        if rest.head? = some '@' then
          if rest.tail.head? = some '&' then
            mentionTail .RoleMention p 4 rest.tail.tail rest
          else if rest.tail.head? = some '!' then
            mentionTail .UserMention p 4 rest.tail.tail rest
          else
            mentionTail .UserMention p 3 rest.tail rest
        else some (.inl (.UnknownToken p '<'), p + 1, rest)
      else if c = '@' then
        -- `@everyone`/`@here` fold to the same token as the bare words
        if rest.take 8 = "everyone".toList then
          some (.inr (.StringLiteral "everyone"), p + 9, rest.drop 8)
        else if rest.take 4 = "here".toList then
          some (.inr (.StringLiteral "here"), p + 5, rest.drop 4)
        else some (.inl (.UnknownToken p '@'), p + 1, rest)
      else if c.isDigit then
        -- bare integer `[0-9]+`, a deferred "unknown ID"
        some (.inr (.IDLiteral (String.mk ((c :: rest).takeWhile Char.isDigit))),
              p + ((c :: rest).takeWhile Char.isDigit).length,
              (c :: rest).dropWhile Char.isDigit)
      else if identStart c then
        -- bare identifier `[a-zA-Z_][a-zA-Z0-9_]*`
        some (.inr (.StringLiteral (String.mk ((c :: rest).takeWhile identChar))),
              p + ((c :: rest).takeWhile identChar).length,
              (c :: rest).dropWhile identChar)
      else
        -- no rule matches: `UnknownToken(offset, char)`, keep lexing
        some (.inl (.UnknownToken p c), p + 1, rest)

/-- One step of the lexer: skip whitespace (the logos skip rule), then
match one token with `lexCore`. -/
def lexStep (pos : Nat) (s : List Char) :
    Option ((LexicalError ⊕ Tok) × Nat × List Char) :=
  lexCore (pos + (s.takeWhile isWs).length) (s.dropWhile isWs)

/-- The lexer loop.  Each step consumes at least one character, so fuel
`s.length + 1` (supplied by `tokenize`) never runs out. -/
def lexF : Nat → Nat → List Char → List (LexicalError ⊕ Tok)
  | 0, _, _ => []
  | fuel + 1, pos, s =>
      match lexStep pos s with
      | none => []
      | some (r, pos', s') => r :: lexF fuel pos' s'

/-- `DrqlLexer::new(input)` run to completion (the `Iterator` collected). -/
def tokenize (s : String) : List (LexicalError ⊕ Tok) :=
  lexF (s.toList.length + 1) 0 s.toList

/-! ## Parser

Modelled from the spec: the repository's LALRPOP grammar file
(`src/grammar.lalrpop`, referenced by `build.rs` and `lalrpop_mod!` in
`main.rs`) is not among the provided sources; only its consumer
`parse_drql` (`src/drql/parser.rs`) is.  The grammar below follows the
spec, §4.3:

    expr      := union_expr
    union_expr:= union_expr ('+'|'|') term | union_expr '-' term | term
    term      := term '&' atom | atom
    atom      := literal | '(' expr ')'
    literal   := StringLiteral|IDLiteral|UserMention|RoleMention → leaf

realised as a recursive-descent parser: the left-recursive levels become
accumulator loops (left-associative), `&` binds tighter than `+`/`|`/`-`.
Errors (and LALRPOP error recovery) are collapsed to `none`; the claims
only concern successful parses. -/

/-- The five states of the recursive-descent parser: the `union_expr` and
`term` nonterminals, their left-recursion loops (carrying the accumulated
left operand), and `atom`. -/
inductive Mode : Type where
  | union | unionLoop (acc : Expr) | term | termLoop (acc : Expr) | atom

/-- The parser.  Structural fuel recursion; each recursive call spends one
unit, and `parseDrql` supplies provably sufficient fuel. -/
def parseF : Nat → Mode → List Tok → Option (Expr × List Tok)
  | 0, _, _ => none
  | fuel + 1, .atom, toks =>
      match toks with
      | .StringLiteral s :: rest => some (.StringLiteral s, rest)
      | .IDLiteral s :: rest => some (.UnknownID s, rest)
      | .UserMention s :: rest => some (.UserID (natOfChars s.toList), rest)
      | .RoleMention s :: rest => some (.RoleID (natOfChars s.toList), rest)
      | .LeftParen :: rest =>
          (match parseF fuel .union rest with
           | some (e, .RightParen :: rest') => some (e, rest')
           | _ => none)
      | _ => none
  | fuel + 1, .term, toks =>
      match parseF fuel .atom toks with
      | some (e, rest) => parseF fuel (.termLoop e) rest
      | none => none
  | fuel + 1, .termLoop acc, toks =>
      match toks with
      | .Ampersand :: rest =>
          (match parseF fuel .atom rest with
           | some (e, rest') => parseF fuel (.termLoop (.Intersection acc e)) rest'
           | none => none)
      | _ => some (acc, toks)
  | fuel + 1, .union, toks =>
      match parseF fuel .term toks with
      | some (e, rest) => parseF fuel (.unionLoop e) rest
      | none => none
  | fuel + 1, .unionLoop acc, toks =>
      match toks with
      | .Plus :: rest =>
          (match parseF fuel .term rest with
           | some (e, rest') => parseF fuel (.unionLoop (.Union acc e)) rest'
           | none => none)
      | .Pipe :: rest =>
          (match parseF fuel .term rest with
           | some (e, rest') => parseF fuel (.unionLoop (.Union acc e)) rest'
           | none => none)
      | .Minus :: rest =>
          (match parseF fuel .term rest with
           | some (e, rest') => parseF fuel (.unionLoop (.Difference acc e)) rest'
           | none => none)
      | _ => some (acc, toks)

/-- Split a lexed stream into its tokens, or fail on the first lexer error
(a lexer error surfaces as a fatal parse error in the source). -/
def allOk : List (LexicalError ⊕ Tok) → Option (List Tok)
  | [] => some []
  | .inr t :: l => (allOk l).map (t :: ·)
  | .inl _ :: _ => none

/-- `parse_drql` (`src/drql/parser.rs`): lex, then parse a complete `expr`;
the whole token stream must be consumed.  `none` stands for the error cases
(`DrqlParserError`). -/
def parseDrql (input : String) : Option Expr :=
  match allOk (tokenize input) with
  | none => none
  | some toks =>
      match parseF (4 * toks.length + 4) .union toks with
      | some (e, []) => some e
      | _ => none

/-! ## Interpreter (`src/drql/interpreter.rs`) -/

/-- `InterpreterResolver` from `src/drql/interpreter.rs`: four resolution
capabilities, each fallible.  The source's `async` suspension points carry
no semantics for these claims; resolution becomes a plain function. -/
structure InterpreterResolver (E : Type) : Type where
  resolve_string_literal : String → Except E (Finset UserId)
  resolve_unknown_id : String → Except E (Finset UserId)
  resolve_user_id : UserId → Except E (Finset UserId)
  resolve_role_id : UserId → Except E (Finset UserId)

/-- `interpret` from `src/drql/interpreter.rs`: depth-first, left before
right (the source `.await`s the left operand before the right), combining
child sets with `difference`/`intersection`/`union`; the `?` operator is the
`Except` bind, so the first resolver error aborts the evaluation. -/
def interpret {E : Type} (node : Expr) (resolver : InterpreterResolver E) :
    Except E (Finset UserId) :=
  match node with
  | .Difference lhs rhs => do
      let l ← interpret lhs resolver
      let r ← interpret rhs resolver
      pure (l \ r)
  | .Intersection lhs rhs => do
      let l ← interpret lhs resolver
      let r ← interpret rhs resolver
      pure (l ∩ r)
  | .Union lhs rhs => do
      let l ← interpret lhs resolver
      let r ← interpret rhs resolver
      pure (l ∪ r)
  | .StringLiteral contents => resolver.resolve_string_literal contents
  | .UnknownID id => resolver.resolve_unknown_id id
  | .UserID id => resolver.resolve_user_id id
  | .RoleID id => resolver.resolve_role_id id

/-! ## Scanner (`src/drql/scanner.rs`)

`scan` applies the regex `@\{(.+?)\}` with `find_iter` and strips the
delimiters.  In the `regex` crate `.` does not match `\n`, and `.+?` is the
lazy repetition: a match starting at `@{` takes at least one content
character and closes at the first `}` thereafter (a longer match would have
to step over that unescapable `}`), and fails if a newline intervenes.
`find_iter` yields leftmost, non-overlapping matches. -/

/-- Split the content region at the first `}`: `splitAtClose t = some (a, b)`
iff `t = a ++ '}' :: b` with no `}` in `a`. -/
def splitAtClose : List Char → Option (List Char × List Char)
  | [] => none
  | c :: rest =>
      if c = '}' then some ([], rest)
      else (splitAtClose rest).map fun p => (c :: p.1, p.2)

/-- Try to match `@\{(.+?)\}` at the start of `s`: requires `@`, `{`, then at
least one content character, closing at the first `}` after that character;
no newline may occur in the content (`.` does not match `\n`).  Returns the
content and the characters after the match. -/
def tryMatch : List Char → Option (List Char × List Char)
  | a :: b :: c0 :: t =>
      if a = '@' ∧ b = '{' then
        match splitAtClose t with
        | some (p, q) =>
            if '\n' ∈ c0 :: p then none else some (c0 :: p, q)
        | none => none
      else none
  | _ => none

/-- A successful `splitAtClose` is exactly a split at the first `}`. -/
theorem splitAtClose_eq : ∀ (t a b : List Char),
    splitAtClose t = some (a, b) → t = a ++ '}' :: b := by
  intro t
  induction t with
  | nil => intro a b h; simp [splitAtClose] at h
  | cons x xs ih =>
    intro a b h
    by_cases hx : x = '}'
    · subst hx
      simp only [splitAtClose, if_true, Option.some.injEq, Prod.mk.injEq,
        eq_self_iff_true, if_pos] at h
      simp [← h.1, ← h.2]
    · rw [splitAtClose, if_neg hx] at h
      cases hs : splitAtClose xs with
      | none => rw [hs] at h; simp at h
      | some p =>
          rw [hs] at h
          simp only [Option.map_some', Option.some.injEq,
            Prod.mk.injEq] at h
          obtain ⟨rfl, rfl⟩ := h
          simpa using ih p.1 p.2 (by simpa using hs)

/-- A match of `@\{(.+?)\}` consumes at least four characters, so the
remainder is strictly shorter. -/
theorem tryMatch_length (s content after : List Char)
    (h : tryMatch s = some (content, after)) : after.length < s.length := by
  rw [tryMatch.eq_def] at h
  split at h
  · next a b c0 t =>
      split at h
      · cases hs : splitAtClose t with
        | none => rw [hs] at h; simp at h
        | some p =>
            rw [hs] at h
            simp only [] at h
            split at h
            · exact absurd h (by simp)
            · simp only [Option.some.injEq, Prod.mk.injEq] at h
              have hb : after = p.2 := h.2.symm
              have ht : t = p.1 ++ '}' :: p.2 :=
                splitAtClose_eq t p.1 p.2 (by cases p; exact hs)
              subst hb
              simp [ht]
              omega
      · exact absurd h (by simp)
  · exact absurd h (by simp)

/-- The `find_iter` loop: try a match at every position, leftmost first;
after a match, continue after it (non-overlapping).  Fuel recursion: by
`tryMatch_length` every step consumes at least one character, so the fuel
supplied by `scan` cannot run out. -/
def scanF : Nat → List Char → List (List Char)
  | 0, _ => []
  | _ + 1, [] => []
  | fuel + 1, c :: rest =>
      match tryMatch (c :: rest) with
      | some (content, after) => content :: scanF fuel after
      | none => scanF fuel rest

/-- `scan`: all matches of `@\{(.+?)\}`, leftmost first, non-overlapping,
each stripped to its content. -/
def scan (s : List Char) : List (List Char) := scanF (s.length + 1) s

/-! ## Set optimizer (`src/util/unionize_set.rs`)

`unionize_set` receives a `HashSet` target and a `HashMap` of candidate
sets.  A `HashMap` is a finite map together with an iteration order (the
order its iterators produce, on which the algorithm's tie-breaks depend),
so it is embedded as an association list; the target and the bit-vectors
become `Finset`s (a bit-vector over the per-call value index denotes
exactly the `Finset` of values whose bits are set; `&`, `|`, `& !`,
`count_ones`, `any` become `∩`, `∪`, `\`, `card`, nonemptiness).
Rust's `Iterator::max` and `max_by_key` return the LAST maximal element;
`Iterator::find` returns the first. -/

/-- The maximum of a list of counts (`.max()`; the loop guard guarantees
nonemptiness in the source, so the `0` default is never read). -/
def listMax (l : List Nat) : Nat := l.foldr max 0

/-- `union_of_all_bitfields_except` from `unionize_set`: the union of the
tied candidates' bit-vectors, excluding index `i`. -/
def unionOfAllExcept {K V : Type} [DecidableEq V]
    (tied : List (K × Finset V)) (i : Nat) : Finset V :=
  ((tied.enum.filter fun p => p.1 ≠ i).map fun p => p.2.2).foldl (· ∪ ·) ∅

/-- `is_distinct` from `unionize_set`: candidate `i`'s bits do not meet the
union of the other tied candidates. -/
def isDistinct {K V : Type} [DecidableEq V]
    (tied : List (K × Finset V)) (i : Nat) : Bool :=
  (unionOfAllExcept tied i ∩ (((tied.get? i).map Prod.snd).getD ∅)).card = 0

/-- Rust `Iterator::max_by_key`: the LAST element attaining the maximal
key, or `none` for an empty list. -/
def maxByKeyLast {α : Type} (f : α → Nat) : List α → Option α
  | [] => none
  | a :: l =>
      match maxByKeyLast f l with
      | none => some a
      | some b => if f b < f a then some a else some b

/-- The selection among the tied maximal candidates (`selected_set` in the
source): a single tied candidate is taken as is; otherwise the first
"distinct" one; otherwise the one with the most bits unique to itself
(`max_by_key`, last wins on residual ties). -/
def selectSet {K V : Type} [DecidableEq V]
    (tied : List (K × Finset V)) : Option (K × Finset V) :=
  match tied with
  | [] => none                         -- `unreachable!()` in the source
  | [kv] => some kv
  | _ :: _ :: _ =>
      match tied.enum.find? (fun p => isDistinct tied p.1) with
      | some p => some p.2
      | none =>
          (maxByKeyLast (fun p => (p.2.2 \ unionOfAllExcept tied p.1).card)
            tied.enum).map Prod.snd

/-- The `while` loop of `unionize_set`: while some candidate bit-vector is
nonempty, select among the largest candidates and clear the selected bits
from the target and from every candidate.  Fuel recursion: each iteration
clears a nonempty candidate from every set, so the total cardinality drops
and the fuel supplied by `unionize_set` cannot run out. -/
def unionizeLoop {K V : Type} [DecidableEq K] [DecidableEq V] :
    Nat → Finset V → List (K × Finset V) → Finset K → Finset K × Finset V
  | 0, t, _, chosen => (chosen, t)
  | fuel + 1, t, l, chosen =>
      if l.any fun kv => decide kv.2.Nonempty then
        let max_size := listMax (l.map fun kv => kv.2.card)
        let tied := l.filter fun kv => kv.2.card = max_size
        match selectSet tied with
        | none => (chosen, t)          -- `unreachable!()` in the source
        | some sel =>
            unionizeLoop fuel (t \ sel.2)
              (l.map fun kv => (kv.1, kv.2 \ sel.2))
              (insert sel.1 chosen)
      else (chosen, t)

/-- `UnionizeSetResult` from `src/util/unionize_set.rs`. -/
structure UnionizeSetResult (K V : Type) [DecidableEq K] [DecidableEq V] :
    Type where
  sets : Finset K
  outliers : Finset V

/-- The first step of `unionize_set`: candidates that are not subsets of
the target are disqualified. -/
def filtered_preexisting_sets {K V : Type} [DecidableEq V]
    (target : Finset V) (preexisting_sets : List (K × Finset V)) :
    List (K × Finset V) :=
  preexisting_sets.filter fun kv => kv.2 ⊆ target

/-- `unionize_set`: filter, run the greedy loop, and read the outliers off
the remaining target bits. -/
def unionize_set {K V : Type} [DecidableEq K] [DecidableEq V]
    (target : Finset V) (preexisting_sets : List (K × Finset V)) :
    UnionizeSetResult K V :=
  let filtered := filtered_preexisting_sets target preexisting_sets
  let r := unionizeLoop ((filtered.map fun kv => kv.2.card).sum + 1)
    target filtered ∅
  ⟨r.1, r.2⟩

/-! ## Auxiliary notions used by the theorems -/

/-- The union of a list of finsets. -/
def listUnion {V : Type} [DecidableEq V] (l : List (Finset V)) : Finset V :=
  l.foldr (· ∪ ·) ∅

/-- The union of the member sets of the candidates whose key was chosen. -/
def chosenUnion {K V : Type} [DecidableEq K] [DecidableEq V]
    (l : List (K × Finset V)) (ch : Finset K) : Finset V :=
  listUnion ((l.filter fun kv => decide (kv.1 ∈ ch)).map Prod.snd)

/-- The token stream of a rendered expression (`Display` output, lexed). -/
def toks : Expr → List Tok
  | .Union l r => .LeftParen :: toks l ++ .Pipe :: toks r ++ [.RightParen]
  | .Intersection l r => .LeftParen :: toks l ++ .Ampersand :: toks r ++ [.RightParen]
  | .Difference l r => .LeftParen :: toks l ++ .Minus :: toks r ++ [.RightParen]
  | .StringLiteral s => [.StringLiteral s]
  | .UnknownID s => [.IDLiteral s]
  | .UserID n => [.UserMention (String.mk (charsOfNat n))]
  | .RoleID n => [.RoleMention (String.mk (charsOfNat n))]

/-- Does `cs` decompose into units of the string-literal body regex
`([^"\\]|\\.)*` — i.e. no unescaped `"` and no trailing `\`?  Exactly these
bodies re-lex to a single string-literal token with the same raw payload.
The flag mirrors `scanStringAux`: a backslash has been read and its escaped
character is still due. -/
def unitsOkF : Bool → List Char → Bool
  | false, [] => true
  | true, [] => false
  | true, _ :: l => unitsOkF false l
  | false, c :: l =>
      if c = '"' then false
      else if c = '\\' then unitsOkF true l
      else unitsOkF false l

/-- Unit decomposition from outside an escape. -/
def unitsOk (cs : List Char) : Bool := unitsOkF false cs

/-- Does the `StringLiteral` payload `cs` survive a render/re-lex round
trip?  A payload of bare characters is rendered unquoted, so it must be a
valid identifier (nonempty, not digit-initial); otherwise it is rendered
quoted verbatim, so its body must re-lex as one string literal. -/
def goodStringChars (cs : List Char) : Bool :=
  if cs.all bareChar then
    match cs with
    | [] => false
    | c :: _ => !c.isDigit
  else unitsOk cs

/-- The expressions whose rendering re-parses to the same tree: every
`StringLiteral` payload is `goodStringChars` and every `UnknownID` payload
is a nonempty digit string.  (`UserID`/`RoleID` always round-trip.) -/
def GoodExpr : Expr → Bool
  | .Union l r => GoodExpr l && GoodExpr r
  | .Intersection l r => GoodExpr l && GoodExpr r
  | .Difference l r => GoodExpr l && GoodExpr r
  | .StringLiteral s => goodStringChars s.toList
  | .UnknownID s => !s.toList.isEmpty && s.toList.all Char.isDigit
  | .UserID _ => true
  | .RoleID _ => true

/-- Parser fuel adequate for `toks e` (each node costs a bounded number of
recursive calls; see `parseF_atom_toks`). -/
def FA : Expr → Nat
  | .Union l r => FA l + FA r + 5
  | .Intersection l r => FA l + FA r + 5
  | .Difference l r => FA l + FA r + 5
  | .StringLiteral _ => 1
  | .UnknownID _ => 1
  | .UserID _ => 1
  | .RoleID _ => 1

/-- The spec's set algebra (§4.4 "Combination is exact mathematical
union/intersection/(left-minus-right) difference"), over leaf valuations:
the reference semantics `interpret` is compared against. -/
def specSetAlgebra (vs vu : String → Finset UserId)
    (vui vri : UserId → Finset UserId) : Expr → Finset UserId
  | .Union l r => specSetAlgebra vs vu vui vri l ∪ specSetAlgebra vs vu vui vri r
  | .Intersection l r => specSetAlgebra vs vu vui vri l ∩ specSetAlgebra vs vu vui vri r
  | .Difference l r => specSetAlgebra vs vu vui vri l \ specSetAlgebra vs vu vui vri r
  | .StringLiteral s => vs s
  | .UnknownID s => vu s
  | .UserID n => vui n
  | .RoleID n => vri n

/-- The resolver calls `interpret` makes, in evaluation order (depth-first,
left before right), with their results. -/
def leafResults {E : Type} (r : InterpreterResolver E) :
    Expr → List (Except E (Finset UserId))
  | .Union l rr => leafResults r l ++ leafResults r rr
  | .Intersection l rr => leafResults r l ++ leafResults r rr
  | .Difference l rr => leafResults r l ++ leafResults r rr
  | .StringLiteral s => [r.resolve_string_literal s]
  | .UnknownID s => [r.resolve_unknown_id s]
  | .UserID n => [r.resolve_user_id n]
  | .RoleID n => [r.resolve_role_id n]

/-! ## Small list lemmas -/

theorem le_listMax {a : Nat} : ∀ {l : List Nat}, a ∈ l → a ≤ listMax l := by
  intro l
  induction l with
  | nil => simp
  | cons b l ih =>
    intro h
    rcases List.mem_cons.mp h with rfl | h
    · exact le_max_left _ _
    · exact le_trans (ih h) (le_max_right _ _)

theorem listMax_le {b : Nat} : ∀ {l : List Nat},
    (∀ a ∈ l, a ≤ b) → listMax l ≤ b := by
  intro l
  induction l with
  | nil => intro _; simp [listMax]
  | cons c l ih =>
    intro h
    exact max_le (h c (by simp)) (ih fun a ha => h a (by simp [ha]))

theorem listMax_mem : ∀ {l : List Nat}, l ≠ [] → listMax l ∈ l := by
  intro l
  induction l with
  | nil => simp
  | cons b l ih =>
    intro _
    rcases eq_or_ne l [] with rfl | hne
    · simp [listMax]
    · rcases le_or_lt (listMax l) b with h | h
      · have : listMax (b :: l) = b := max_eq_left h
        rw [this]; simp
      · have : listMax (b :: l) = listMax l := max_eq_right (le_of_lt h)
        rw [this]
        exact List.mem_cons_of_mem _ (ih hne)

theorem maxByKeyLast_mem {α : Type} (f : α → Nat) :
    ∀ {l : List α} {a}, maxByKeyLast f l = some a → a ∈ l := by
  intro l
  induction l with
  | nil => intro a h; simp [maxByKeyLast] at h
  | cons x l ih =>
    intro a h
    rw [maxByKeyLast] at h
    cases hm : maxByKeyLast f l with
    | none => rw [hm] at h; simp at h; simp [h]
    | some b =>
        rw [hm] at h
        replace h : (if f b < f x then some x else some b) = some a := h
        by_cases hf : f b < f x
        · rw [if_pos hf] at h; simp at h; simp [h]
        · rw [if_neg hf] at h; simp at h
          exact List.mem_cons_of_mem _ (ih (h ▸ hm))

theorem maxByKeyLast_eq_none {α : Type} (f : α → Nat) :
    ∀ {l : List α}, maxByKeyLast f l = none → l = [] := by
  intro l
  cases l with
  | nil => intro _; rfl
  | cons x l =>
      intro h
      rw [maxByKeyLast] at h
      cases hm : maxByKeyLast f l with
      | none => rw [hm] at h; simp at h
      | some b =>
          rw [hm] at h
          replace h : (if f b < f x then some x else some b) = none := h
          by_cases hf : f b < f x <;> simp [hf] at h

theorem snd_mem_of_mem_enum {α : Type} {l : List α} {p : Nat × α}
    (h : p ∈ l.enum) : p.2 ∈ l := by
  obtain ⟨i, x⟩ := p
  rw [List.mk_mem_enum_iff_getElem?] at h
  exact List.getElem?_mem h

theorem selectSet_mem {K V : Type} [DecidableEq V]
    {tied : List (K × Finset V)} (h : tied ≠ []) :
    ∃ sel, selectSet tied = some sel ∧ sel ∈ tied := by
  match tied with
  | [] => exact absurd rfl h
  | [kv] => exact ⟨kv, rfl, by simp⟩
  | a :: b :: rest =>
      rw [selectSet]
      cases hf : (a :: b :: rest).enum.find?
          (fun p => isDistinct (a :: b :: rest) p.1) with
      | some p =>
          exact ⟨p.2, rfl, snd_mem_of_mem_enum (List.mem_of_find?_eq_some hf)⟩
      | none =>
          cases hm : maxByKeyLast
              (fun p => (p.2.2 \ unionOfAllExcept (a :: b :: rest) p.1).card)
              (a :: b :: rest).enum with
          | none =>
              have := maxByKeyLast_eq_none _ hm
              have hlen := congrArg List.length this
              simp [List.enum_length] at hlen
          | some m =>
              exact ⟨m.2, by simp, snd_mem_of_mem_enum (maxByKeyLast_mem _ hm)⟩

theorem key_inj {K V : Type} :
    ∀ {l : List (K × V)}, (l.map Prod.fst).Nodup →
      ∀ {kv1 kv2 : K × V}, kv1 ∈ l → kv2 ∈ l → kv1.1 = kv2.1 → kv1 = kv2 := by
  intro l
  induction l with
  | nil => intro _ kv1 kv2 h; simp at h
  | cons a l ih =>
    intro hnd kv1 kv2 h1 h2 hk
    rw [List.map_cons, List.nodup_cons] at hnd
    obtain rfl | h1' := List.mem_cons.mp h1
    · obtain rfl | h2' := List.mem_cons.mp h2
      · rfl
      · have : kv1.1 ∈ l.map Prod.fst := by
          rw [hk]; exact List.mem_map_of_mem Prod.fst h2'
        exact absurd this hnd.1
    · obtain rfl | h2' := List.mem_cons.mp h2
      · have : kv2.1 ∈ l.map Prod.fst := by
          rw [← hk]; exact List.mem_map_of_mem Prod.fst h1'
        exact absurd this hnd.1
      · exact ih hnd.2 h1' h2' hk

theorem mem_listUnion {V : Type} [DecidableEq V] {x : V} :
    ∀ {l : List (Finset V)}, x ∈ listUnion l ↔ ∃ s ∈ l, x ∈ s := by
  intro l
  induction l with
  | nil => simp [listUnion]
  | cons s l ih =>
      rw [show listUnion (s :: l) = s ∪ listUnion l from rfl]
      simp [ih]

theorem mem_chosenUnion {K V : Type} [DecidableEq K] [DecidableEq V]
    {l : List (K × Finset V)} {ch : Finset K} {x : V} :
    x ∈ chosenUnion l ch ↔ ∃ kv ∈ l, kv.1 ∈ ch ∧ x ∈ kv.2 := by
  rw [chosenUnion, mem_listUnion]
  constructor
  · rintro ⟨s, hs, hx⟩
    obtain ⟨kv, hkv, rfl⟩ := List.mem_map.mp hs
    have := List.mem_filter.mp hkv
    exact ⟨kv, this.1, by simpa using this.2, hx⟩
  · rintro ⟨kv, hkv, hch, hx⟩
    exact ⟨kv.2, List.mem_map_of_mem Prod.snd
      (List.mem_filter.mpr ⟨hkv, by simpa using hch⟩), hx⟩

/-! ## Claim theorems: scanner -/

theorem tryMatch_content {s content after : List Char}
    (h : tryMatch s = some (content, after)) :
    content ≠ [] ∧ '\n' ∉ content := by
  rw [tryMatch.eq_def] at h
  split at h
  · split at h
    · cases hs : splitAtClose _ with
      | none => rw [hs] at h; simp at h
      | some p =>
          rw [hs] at h
          simp only [] at h
          split at h
          · exact absurd h (by simp)
          · next hnl =>
              simp only [Option.some.injEq, Prod.mk.injEq] at h
              rw [← h.1]
              exact ⟨by simp, hnl⟩
    · exact absurd h (by simp)
  · exact absurd h (by simp)

theorem scanF_chunk_shape :
    ∀ (f : Nat) (s ch : List Char), ch ∈ scanF f s → ch ≠ [] ∧ '\n' ∉ ch := by
  intro f
  induction f with
  | zero => intro s ch h; simp [scanF] at h
  | succ f ih =>
    intro s ch h
    cases s with
    | nil => simp [scanF] at h
    | cons c rest =>
      rw [scanF] at h
      cases htm : tryMatch (c :: rest) with
      | none => rw [htm] at h; exact ih _ _ h
      | some p =>
          obtain ⟨content, after⟩ := p
          rw [htm] at h
          rcases List.mem_cons.mp h with rfl | h
          · exact tryMatch_content htm
          · exact ih _ _ h

/-- C10: every chunk yielded by `scan` is nonempty and newline-free; the
empty query `@{}` yields no chunk; an `@{` closed only on a later line is
not recognized as a query. -/
theorem scan_chunk_shape :
    (∀ (s ch : List Char), ch ∈ scan s → ch ≠ [] ∧ '\n' ∉ ch)
    ∧ scan "@{}".toList = []
    ∧ scan ('a' :: '@' :: '\x7b' :: 'b' :: '\n' :: 'c' :: '\x7d' :: 'd' :: []) = [] :=
  ⟨fun s ch h => scanF_chunk_shape _ s ch h, by decide, by decide⟩

theorem scan_chunk_shape_witness :
    (['b'] ∈ scan "a@{b}c@{d}e".toList)
    ∧ (['b'] ≠ [] ∧ '\n' ∉ ['b']) :=
  ⟨by decide, scan_chunk_shape.1 "a@{b}c@{d}e".toList ['b'] (by decide)⟩

/-! ## Claim theorems: interpreter -/

/-- C6: over an error-free resolver, `interpret` computes exactly the
spec's set algebra of the leaf valuations (union, intersection,
left-minus-right difference). -/
theorem interpret_matches_set_algebra {E : Type} (r : InterpreterResolver E)
    (vs vu : String → Finset UserId) (vui vri : UserId → Finset UserId)
    (hs : ∀ s, r.resolve_string_literal s = .ok (vs s))
    (hu : ∀ s, r.resolve_unknown_id s = .ok (vu s))
    (hui : ∀ n, r.resolve_user_id n = .ok (vui n))
    (hri : ∀ n, r.resolve_role_id n = .ok (vri n)) :
    ∀ e, interpret e r = .ok (specSetAlgebra vs vu vui vri e) := by
  intro e
  induction e with
  | Union l rr ihl ihr =>
      rw [interpret, ihl, ihr]; rfl
  | Intersection l rr ihl ihr =>
      rw [interpret, ihl, ihr]; rfl
  | Difference l rr ihl ihr =>
      rw [interpret, ihl, ihr]; rfl
  | StringLiteral s => rw [interpret, hs]; rfl
  | UnknownID s => rw [interpret, hu]; rfl
  | UserID n => rw [interpret, hui]; rfl
  | RoleID n => rw [interpret, hri]; rfl

theorem interpret_matches_set_algebra_witness :
    interpret (Expr.Union (.StringLiteral "a") (.Difference (.UserID 5) (.RoleID 7)))
        (⟨fun _ => .ok {1, 2}, fun _ => .ok {3}, fun _ => .ok {1, 4},
          fun _ => .ok {4}⟩ : InterpreterResolver Unit)
      = .ok ({1, 2} ∪ ({1, 4} \ {4}) : Finset UserId) := by
  have := interpret_matches_set_algebra
    (⟨fun _ => .ok {1, 2}, fun _ => .ok {3}, fun _ => .ok {1, 4},
      fun _ => .ok {4}⟩ : InterpreterResolver Unit)
    (fun _ => {1, 2}) (fun _ => {3}) (fun _ => {1, 4}) (fun _ => {4})
    (fun _ => rfl) (fun _ => rfl) (fun _ => rfl) (fun _ => rfl)
    (Expr.Union (.StringLiteral "a") (.Difference (.UserID 5) (.RoleID 7)))
  rw [this]
  rfl

theorem interpret_ok_of_leaves_ok {E : Type} (r : InterpreterResolver E) :
    ∀ e, (∀ res ∈ leafResults r e, ∃ v, res = .ok v) →
      ∃ v, interpret e r = .ok v := by
  intro e
  induction e with
  | Union l rr ihl ihr =>
      intro h
      rw [leafResults] at h
      obtain ⟨v1, hv1⟩ := ihl fun res hres => h res (by simp [hres])
      obtain ⟨v2, hv2⟩ := ihr fun res hres => h res (by simp [hres])
      exact ⟨v1 ∪ v2, by rw [interpret, hv1, hv2]; rfl⟩
  | Intersection l rr ihl ihr =>
      intro h
      rw [leafResults] at h
      obtain ⟨v1, hv1⟩ := ihl fun res hres => h res (by simp [hres])
      obtain ⟨v2, hv2⟩ := ihr fun res hres => h res (by simp [hres])
      exact ⟨v1 ∩ v2, by rw [interpret, hv1, hv2]; rfl⟩
  | Difference l rr ihl ihr =>
      intro h
      rw [leafResults] at h
      obtain ⟨v1, hv1⟩ := ihl fun res hres => h res (by simp [hres])
      obtain ⟨v2, hv2⟩ := ihr fun res hres => h res (by simp [hres])
      exact ⟨v1 \ v2, by rw [interpret, hv1, hv2]; rfl⟩
  | StringLiteral s =>
      intro h
      obtain ⟨v, hv⟩ := h (r.resolve_string_literal s) (by simp [leafResults])
      exact ⟨v, by rw [interpret, hv]⟩
  | UnknownID s =>
      intro h
      obtain ⟨v, hv⟩ := h (r.resolve_unknown_id s) (by simp [leafResults])
      exact ⟨v, by rw [interpret, hv]⟩
  | UserID n =>
      intro h
      obtain ⟨v, hv⟩ := h (r.resolve_user_id n) (by simp [leafResults])
      exact ⟨v, by rw [interpret, hv]⟩
  | RoleID n =>
      intro h
      obtain ⟨v, hv⟩ := h (r.resolve_role_id n) (by simp [leafResults])
      exact ⟨v, by rw [interpret, hv]⟩

/-- C7: each leaf kind is delegated to exactly its resolver method, and if
any leaf resolution errors, `interpret` returns one of the leaf errors —
never a partial set. -/
theorem interpret_delegates_and_propagates_errors {E : Type}
    (r : InterpreterResolver E) :
    (∀ s, interpret (Expr.StringLiteral s) r = r.resolve_string_literal s)
    ∧ (∀ s, interpret (Expr.UnknownID s) r = r.resolve_unknown_id s)
    ∧ (∀ n, interpret (Expr.UserID n) r = r.resolve_user_id n)
    ∧ (∀ n, interpret (Expr.RoleID n) r = r.resolve_role_id n)
    ∧ ∀ e, (∃ res ∈ leafResults r e, ∃ ε, res = .error ε) →
        ∃ ε, interpret e r = .error ε
          ∧ Except.error ε ∈ leafResults r e := by
  refine ⟨fun _ => rfl, fun _ => rfl, fun _ => rfl, fun _ => rfl, ?_⟩
  intro e
  induction e with
  | Union l rr ihl ihr =>
      rintro ⟨res, hres, ε, rfl⟩
      rw [leafResults] at hres ⊢
      rcases List.mem_append.mp hres with hmem | hmem
      · obtain ⟨ε', hε', hmem'⟩ := ihl ⟨_, hmem, ε, rfl⟩
        exact ⟨ε', by rw [interpret, hε']; rfl, List.mem_append_left _ hmem'⟩
      · rcases Classical.em
            (∃ res ∈ leafResults r l, ∃ δ, res = .error δ) with hL | hL
        · obtain ⟨ε', hε', hmem'⟩ := ihl hL
          exact ⟨ε', by rw [interpret, hε']; rfl,
            List.mem_append_left _ hmem'⟩
        · have hok : ∀ res ∈ leafResults r l, ∃ v, res = .ok v := by
            intro res h'
            cases res with
            | ok v => exact ⟨v, rfl⟩
            | error δ => exact absurd ⟨_, h', δ, rfl⟩ hL
          obtain ⟨v, hv⟩ := interpret_ok_of_leaves_ok r l hok
          obtain ⟨ε', hε', hmem'⟩ := ihr ⟨_, hmem, ε, rfl⟩
          exact ⟨ε', by rw [interpret, hv, hε']; rfl,
            List.mem_append_right _ hmem'⟩
  | Intersection l rr ihl ihr =>
      rintro ⟨res, hres, ε, rfl⟩
      rw [leafResults] at hres ⊢
      rcases List.mem_append.mp hres with hmem | hmem
      · obtain ⟨ε', hε', hmem'⟩ := ihl ⟨_, hmem, ε, rfl⟩
        exact ⟨ε', by rw [interpret, hε']; rfl, List.mem_append_left _ hmem'⟩
      · rcases Classical.em
            (∃ res ∈ leafResults r l, ∃ δ, res = .error δ) with hL | hL
        · obtain ⟨ε', hε', hmem'⟩ := ihl hL
          exact ⟨ε', by rw [interpret, hε']; rfl,
            List.mem_append_left _ hmem'⟩
        · have hok : ∀ res ∈ leafResults r l, ∃ v, res = .ok v := by
            intro res h'
            cases res with
            | ok v => exact ⟨v, rfl⟩
            | error δ => exact absurd ⟨_, h', δ, rfl⟩ hL
          obtain ⟨v, hv⟩ := interpret_ok_of_leaves_ok r l hok
          obtain ⟨ε', hε', hmem'⟩ := ihr ⟨_, hmem, ε, rfl⟩
          exact ⟨ε', by rw [interpret, hv, hε']; rfl,
            List.mem_append_right _ hmem'⟩
  | Difference l rr ihl ihr =>
      rintro ⟨res, hres, ε, rfl⟩
      rw [leafResults] at hres ⊢
      rcases List.mem_append.mp hres with hmem | hmem
      · obtain ⟨ε', hε', hmem'⟩ := ihl ⟨_, hmem, ε, rfl⟩
        exact ⟨ε', by rw [interpret, hε']; rfl, List.mem_append_left _ hmem'⟩
      · rcases Classical.em
            (∃ res ∈ leafResults r l, ∃ δ, res = .error δ) with hL | hL
        · obtain ⟨ε', hε', hmem'⟩ := ihl hL
          exact ⟨ε', by rw [interpret, hε']; rfl,
            List.mem_append_left _ hmem'⟩
        · have hok : ∀ res ∈ leafResults r l, ∃ v, res = .ok v := by
            intro res h'
            cases res with
            | ok v => exact ⟨v, rfl⟩
            | error δ => exact absurd ⟨_, h', δ, rfl⟩ hL
          obtain ⟨v, hv⟩ := interpret_ok_of_leaves_ok r l hok
          obtain ⟨ε', hε', hmem'⟩ := ihr ⟨_, hmem, ε, rfl⟩
          exact ⟨ε', by rw [interpret, hv, hε']; rfl,
            List.mem_append_right _ hmem'⟩
  | StringLiteral s =>
      rintro ⟨res, hres, ε, rfl⟩
      rw [leafResults, List.mem_singleton] at hres
      exact ⟨ε, by rw [interpret, ← hres], by rw [leafResults, ← hres]; simp⟩
  | UnknownID s =>
      rintro ⟨res, hres, ε, rfl⟩
      rw [leafResults, List.mem_singleton] at hres
      exact ⟨ε, by rw [interpret, ← hres], by rw [leafResults, ← hres]; simp⟩
  | UserID n =>
      rintro ⟨res, hres, ε, rfl⟩
      rw [leafResults, List.mem_singleton] at hres
      exact ⟨ε, by rw [interpret, ← hres], by rw [leafResults, ← hres]; simp⟩
  | RoleID n =>
      rintro ⟨res, hres, ε, rfl⟩
      rw [leafResults, List.mem_singleton] at hres
      exact ⟨ε, by rw [interpret, ← hres], by rw [leafResults, ← hres]; simp⟩

theorem interpret_delegates_and_propagates_errors_witness :
    ∃ ε, interpret
        (Expr.Union (.StringLiteral "good") (.UnknownID "bad"))
        (⟨fun _ => .ok ∅, fun _ => .error 42, fun _ => .ok ∅,
          fun _ => .ok ∅⟩ : InterpreterResolver Nat)
      = .error ε
      ∧ Except.error ε ∈ leafResults
        (⟨fun _ => .ok ∅, fun _ => .error 42, fun _ => .ok ∅,
          fun _ => .ok ∅⟩ : InterpreterResolver Nat)
        (Expr.Union (.StringLiteral "good") (.UnknownID "bad")) :=
  (interpret_delegates_and_propagates_errors _).2.2.2.2
    (Expr.Union (.StringLiteral "good") (.UnknownID "bad"))
    ⟨.error 42, by simp [leafResults], 42, rfl⟩

/-! ## Claim theorems: parser and lexer -/

/-- C5: the parser's precedence and associativity on the spec's three
examples — `&` binds tighter than the shared `+`/`|`/`-` level, which is
left-associative. -/
theorem parse_precedence_examples :
    parseDrql "a & b + c"
      = some (.Union (.Intersection (.StringLiteral "a") (.StringLiteral "b"))
          (.StringLiteral "c"))
    ∧ parseDrql "a - b + c"
      = some (.Union (.Difference (.StringLiteral "a") (.StringLiteral "b"))
          (.StringLiteral "c"))
    ∧ parseDrql "a - b - c"
      = some (.Difference (.Difference (.StringLiteral "a") (.StringLiteral "b"))
          (.StringLiteral "c")) := by
  refine ⟨?_, ?_, ?_⟩ <;> rfl

/-- C9: `@everyone` lexes to the very token (kind and payload) of the bare
word `everyone`, likewise `@here`/`here`, and the parsed leaves agree. -/
theorem lex_reserved_mentions :
    tokenize "@everyone" = tokenize "everyone"
    ∧ tokenize "@here" = tokenize "here"
    ∧ tokenize "@everyone" = [Sum.inr (Tok.StringLiteral "everyone")]
    ∧ tokenize "@here" = [Sum.inr (Tok.StringLiteral "here")]
    ∧ parseDrql "@everyone" = parseDrql "everyone"
    ∧ parseDrql "@everyone" = some (Expr.StringLiteral "everyone")
    ∧ parseDrql "@here" = some (Expr.StringLiteral "here") := by
  refine ⟨?_, ?_, ?_, ?_, ?_, ?_, ?_⟩ <;> rfl

/-! ## Claim theorems: unionize_set determinism (C4) -/

/-- C4 counterexample: the two lists are the same key→set map (a
permutation of one another), yet the chosen keys differ — the tie-break
among equal tied candidates follows the map's iteration order, which is not
determined by the map's contents (Rust's `HashMap` iteration order is
unspecified and varies between invocations; the internal `collect`s reseed
it even for an identical input map). -/
theorem unionize_set_order_dependent :
    ([((0 : Nat), ({1, 2, 3} : Finset Nat)), (1, {1, 2, 3})].Perm
      [((1 : Nat), ({1, 2, 3} : Finset Nat)), (0, {1, 2, 3})])
    ∧ (unionize_set ({1, 2, 3} : Finset Nat)
        [((0 : Nat), ({1, 2, 3} : Finset Nat)), (1, {1, 2, 3})]).sets
      ≠ (unionize_set ({1, 2, 3} : Finset Nat)
        [((1 : Nat), ({1, 2, 3} : Finset Nat)), (0, {1, 2, 3})]).sets := by
  constructor
  · decide
  · decide

/-- C4 amended: `unionize_set` is deterministic as a function of the target
and the candidate map TOGETHER WITH its iteration order — equal ordered
inputs give equal results; equal unordered maps may not (see the
counterexample). -/
theorem unionize_set_deterministic {K V : Type} [DecidableEq K]
    [DecidableEq V] (t₁ t₂ : Finset V) (l₁ l₂ : List (K × Finset V))
    (ht : t₁ = t₂) (hl : l₁ = l₂) :
    unionize_set t₁ l₁ = unionize_set t₂ l₂ := by
  subst ht; subst hl; rfl

/-! ## Claim theorems: unionize_set degenerate cases (C8) -/

theorem sdiff_sdiff_clear {V : Type} [DecidableEq V] (t C s : Finset V) :
    (t \ C) \ (s \ C) = t \ (C ∪ s) := by
  ext x
  simp only [Finset.mem_sdiff, Finset.mem_union]
  tauto

/-- One unfolding of the loop body. -/
theorem unionizeLoop_succ {K V : Type} [DecidableEq K] [DecidableEq V]
    (fuel : Nat) (t : Finset V) (l : List (K × Finset V)) (chosen : Finset K) :
    unionizeLoop (fuel + 1) t l chosen =
      if l.any fun kv => decide kv.2.Nonempty then
        match selectSet
            (l.filter fun kv => kv.2.card = listMax (l.map fun kv => kv.2.card))
          with
        | none => (chosen, t)
        | some sel =>
            unionizeLoop fuel (t \ sel.2)
              (l.map fun kv => (kv.1, kv.2 \ sel.2))
              (insert sel.1 chosen)
      else (chosen, t) := rfl

/-- C8 counterexample: with an empty target and a candidate equal to it,
the candidate equals the target yet NO candidate is chosen (the loop guard
fails immediately), so "exactly one such candidate is chosen" fails. -/
theorem unionize_set_empty_equal_candidate_not_chosen :
    (((0 : Nat), (∅ : Finset Nat)) ∈ [((0 : Nat), (∅ : Finset Nat))]
      ∧ ((0 : Nat), (∅ : Finset Nat)).2 = (∅ : Finset Nat))
    ∧ (unionize_set (∅ : Finset Nat)
        [((0 : Nat), (∅ : Finset Nat))]).sets.card ≠ 1 := by
  constructor
  · exact ⟨by decide, rfl⟩
  · decide

/-- C8 amended: empty target gives empty `sets` and `outliers`; no
candidates gives empty `sets` and `outliers = target`; and when the target
is NONEMPTY and some candidate equals it, exactly one candidate is chosen,
every chosen candidate equals the target, and there are no outliers.  (The
original claim's third clause fails for the empty target, where nothing is
chosen — see the counterexample.) -/
theorem unionize_set_degenerate_cases {K V : Type} [DecidableEq K]
    [DecidableEq V] :
    (∀ (pre : List (K × Finset V)),
      unionize_set (∅ : Finset V) pre = ⟨∅, ∅⟩)
    ∧ (∀ (target : Finset V),
      unionize_set target ([] : List (K × Finset V)) = ⟨∅, target⟩)
    ∧ (∀ (target : Finset V) (pre : List (K × Finset V)),
        (pre.map Prod.fst).Nodup → target.Nonempty →
        ∀ kv₀ ∈ pre, kv₀.2 = target →
          (unionize_set target pre).sets.card = 1
          ∧ (∀ kv ∈ pre, kv.1 ∈ (unionize_set target pre).sets →
              kv.2 = target)
          ∧ (unionize_set target pre).outliers = ∅) := by
  refine ⟨?_, ?_, ?_⟩
  · -- empty target
    intro pre
    have hg : (filtered_preexisting_sets (∅ : Finset V) pre).any
        (fun kv => decide kv.2.Nonempty) = false := by
      rw [List.any_eq_false]
      intro kv hkv
      have h2 := (List.mem_filter.mp hkv).2
      simp only [decide_eq_true_eq, Finset.subset_empty] at h2
      simp [h2]
    have hloop : unionizeLoop
        ((((filtered_preexisting_sets (∅ : Finset V) pre).map
          fun kv => kv.2.card).sum) + 1) (∅ : Finset V)
        (filtered_preexisting_sets (∅ : Finset V) pre) ∅
        = (∅, (∅ : Finset V)) := by
      rw [unionizeLoop_succ, hg]
      simp
    calc unionize_set (∅ : Finset V) pre
        = ⟨(unionizeLoop ((((filtered_preexisting_sets (∅ : Finset V) pre).map
            fun kv => kv.2.card).sum) + 1) (∅ : Finset V)
            (filtered_preexisting_sets (∅ : Finset V) pre) ∅).1,
           (unionizeLoop ((((filtered_preexisting_sets (∅ : Finset V) pre).map
            fun kv => kv.2.card).sum) + 1) (∅ : Finset V)
            (filtered_preexisting_sets (∅ : Finset V) pre) ∅).2⟩ := rfl
      _ = ⟨∅, ∅⟩ := by rw [hloop]
  · -- no candidates
    intro target
    rfl
  · -- nonempty target with a candidate equal to it
    intro target pre hnd hT kv₀ hkv₀ heq
    have hkv₀L : kv₀ ∈ filtered_preexisting_sets target pre :=
      List.mem_filter.mpr ⟨hkv₀, by simp [heq]⟩
    have hsubT : ∀ kv ∈ filtered_preexisting_sets target pre,
        kv.2 ⊆ target := by
      intro kv hkv
      have := (List.mem_filter.mp hkv).2
      simpa using this
    have hsum : target.card ≤ ((filtered_preexisting_sets target pre).map
        fun kv => kv.2.card).sum := by
      have hm : kv₀.2.card ∈ (filtered_preexisting_sets target pre).map
          (fun kv => kv.2.card) := List.mem_map_of_mem _ hkv₀L
      calc target.card = kv₀.2.card := by rw [heq]
        _ ≤ _ := List.le_sum_of_mem hm
    have hTpos : 1 ≤ target.card := Finset.card_pos.mpr hT
    obtain ⟨s', hs'⟩ : ∃ s', (((filtered_preexisting_sets target pre).map
        fun kv => kv.2.card).sum) = s' + 1 :=
      ⟨(((filtered_preexisting_sets target pre).map
        fun kv => kv.2.card).sum) - 1, by omega⟩
    have hguard : (filtered_preexisting_sets target pre).any
        (fun kv => decide kv.2.Nonempty) = true := by
      rw [List.any_eq_true]
      refine ⟨kv₀, hkv₀L, ?_⟩
      rw [heq]
      simpa using hT
    have hmax : listMax ((filtered_preexisting_sets target pre).map
        fun kv => kv.2.card) = target.card := by
      apply le_antisymm
      · apply listMax_le
        intro a ha
        obtain ⟨kv, hkv, rfl⟩ := List.mem_map.mp ha
        exact Finset.card_le_card (hsubT kv hkv)
      · apply le_listMax
        have : kv₀.2.card = target.card := by rw [heq]
        exact this ▸ List.mem_map_of_mem _ hkv₀L
    have htied : kv₀ ∈ (filtered_preexisting_sets target pre).filter
        (fun kv => kv.2.card = listMax ((filtered_preexisting_sets target pre).map
          fun kv => kv.2.card)) := by
      refine List.mem_filter.mpr ⟨hkv₀L, ?_⟩
      simp [heq, hmax]
    obtain ⟨sel, hsel, hselmem⟩ := selectSet_mem (List.ne_nil_of_mem htied)
    have hselL := List.mem_filter.mp hselmem
    have hselcard : sel.2.card = target.card := by
      have := hselL.2
      simpa [hmax] using this
    have hselT : sel.2 = target :=
      Finset.eq_of_subset_of_card_le (hsubT sel hselL.1) (le_of_eq hselcard.symm)
    have hstep : unionizeLoop (s' + 1 + 1) target
        (filtered_preexisting_sets target pre) ∅ = ({sel.1}, (∅ : Finset V)) := by
      rw [unionizeLoop_succ, hguard]
      simp only [if_true]
      rw [hsel]
      dsimp only
      have hg2 : ((filtered_preexisting_sets target pre).map
          fun kv => (kv.1, kv.2 \ sel.2)).any
          (fun kv => decide kv.2.Nonempty) = false := by
        rw [List.any_eq_false]
        intro kv' hkv'
        obtain ⟨kv, hkv, rfl⟩ := List.mem_map.mp hkv'
        have : kv.2 \ sel.2 = ∅ := by
          rw [hselT]
          exact Finset.sdiff_eq_empty_iff_subset.mpr (hsubT kv hkv)
        simp [this]
      rw [unionizeLoop_succ, hg2]
      simp [hselT]
    have hres : unionize_set target pre = ⟨{sel.1}, ∅⟩ := by
      calc unionize_set target pre
          = ⟨(unionizeLoop ((((filtered_preexisting_sets target pre).map
              fun kv => kv.2.card).sum) + 1) target
              (filtered_preexisting_sets target pre) ∅).1,
             (unionizeLoop ((((filtered_preexisting_sets target pre).map
              fun kv => kv.2.card).sum) + 1) target
              (filtered_preexisting_sets target pre) ∅).2⟩ := rfl
        _ = ⟨{sel.1}, ∅⟩ := by rw [hs', hstep]
    refine ⟨by rw [hres]; simp, ?_, by rw [hres]⟩
    intro kv hkv hmem
    rw [hres] at hmem
    simp only [Finset.mem_singleton] at hmem
    have hselpre : sel ∈ pre := List.mem_of_mem_filter hselL.1
    have : kv = sel := key_inj hnd hkv hselpre hmem
    rw [this, hselT]

theorem unionize_set_degenerate_cases_witness :
    (((({1, 2} : Finset Nat)).Nonempty)
      ∧ ([((5 : Nat), ({1, 2} : Finset Nat)), (6, {1})].map Prod.fst).Nodup
      ∧ ((5 : Nat), ({1, 2} : Finset Nat))
          ∈ [((5 : Nat), ({1, 2} : Finset Nat)), (6, {1})]
      ∧ (((5 : Nat), ({1, 2} : Finset Nat)).2 = ({1, 2} : Finset Nat)))
    ∧ ((unionize_set ({1, 2} : Finset Nat)
        [((5 : Nat), ({1, 2} : Finset Nat)), (6, {1})]).sets.card = 1
      ∧ (∀ kv ∈ [((5 : Nat), ({1, 2} : Finset Nat)), (6, {1})],
          kv.1 ∈ (unionize_set ({1, 2} : Finset Nat)
            [((5 : Nat), ({1, 2} : Finset Nat)), (6, {1})]).sets →
          kv.2 = ({1, 2} : Finset Nat))
      ∧ (unionize_set ({1, 2} : Finset Nat)
          [((5 : Nat), ({1, 2} : Finset Nat)), (6, {1})]).outliers = ∅) :=
  ⟨⟨by decide, by decide, by decide, rfl⟩,
    unionize_set_degenerate_cases.2.2 ({1, 2} : Finset Nat)
      [((5 : Nat), ({1, 2} : Finset Nat)), (6, {1})] (by decide) (by decide)
      ((5 : Nat), ({1, 2} : Finset Nat)) (by decide) rfl⟩

/-! ## Decimal round trip (for `UserID`/`RoleID` leaves) -/

theorem digitChar_isDigit : ∀ d < 10, (Nat.digitChar d).isDigit = true := by
  decide

theorem digitVal_digitChar : ∀ d < 10, digitVal (Nat.digitChar d) = d := by
  decide

theorem charsOfNat_isDigit (n : Nat) : ∀ c ∈ charsOfNat n, c.isDigit = true := by
  intro c hc
  rw [charsOfNat] at hc
  by_cases hn : n = 0
  · rw [if_pos hn] at hc
    simp only [List.mem_singleton] at hc
    rw [hc]; decide
  · rw [if_neg hn] at hc
    rw [List.mem_reverse] at hc
    obtain ⟨d, hd, rfl⟩ := List.mem_map.mp hc
    exact digitChar_isDigit d (Nat.digits_lt_base (by norm_num) hd)

theorem charsOfNat_ne_nil (n : Nat) : charsOfNat n ≠ [] := by
  rw [charsOfNat]
  by_cases hn : n = 0
  · rw [if_pos hn]; simp
  · rw [if_neg hn]
    simp [Nat.digits_ne_nil_iff_ne_zero, hn]

theorem foldl_digitChar_reverse :
    ∀ (l : List Nat) (acc : Nat), (∀ d ∈ l, d < 10) →
      List.foldl (fun a d => 10 * a + digitVal (Nat.digitChar d)) acc l.reverse
        = acc * 10 ^ l.length + Nat.ofDigits 10 l := by
  intro l
  induction l with
  | nil => intro acc _; simp [Nat.ofDigits]
  | cons d l ih =>
      intro acc h
      rw [List.reverse_cons, List.foldl_append]
      rw [ih acc fun x hx => h x (List.mem_cons_of_mem _ hx)]
      simp only [List.foldl_cons, List.foldl_nil]
      rw [digitVal_digitChar d (h d (List.mem_cons_self _ _))]
      rw [Nat.ofDigits_cons]
      simp only [List.length_cons, pow_succ]
      ring

theorem natOfChars_charsOfNat (n : Nat) : natOfChars (charsOfNat n) = n := by
  rw [charsOfNat]
  by_cases hn : n = 0
  · rw [if_pos hn, hn]; rfl
  · rw [if_neg hn]
    rw [natOfChars, ← List.map_reverse, List.foldl_map]
    rw [foldl_digitChar_reverse _ 0
      (fun d hd => Nat.digits_lt_base (by norm_num) hd)]
    simp [Nat.ofDigits_digits]

/-! ## Parser lemmas: `toks e` parses back to `e` (for C2) -/

theorem parseF_termLoop_stop (f : Nat) (acc : Expr) (ts : List Tok)
    (h : ∀ t rest, ts = t :: rest → t ≠ Tok.Ampersand) :
    parseF (f + 1) (.termLoop acc) ts = some (acc, ts) := by
  cases ts with
  | nil => rfl
  | cons t rest =>
      cases t
      case Ampersand => exact absurd rfl (h _ rest rfl)
      all_goals rfl

theorem parseF_unionLoop_stop (f : Nat) (acc : Expr) (ts : List Tok)
    (h : ∀ t rest, ts = t :: rest →
      t ≠ Tok.Plus ∧ t ≠ Tok.Pipe ∧ t ≠ Tok.Minus) :
    parseF (f + 1) (.unionLoop acc) ts = some (acc, ts) := by
  cases ts with
  | nil => rfl
  | cons t rest =>
      cases t
      case Plus => exact absurd rfl (h _ rest rfl).1
      case Pipe => exact absurd rfl (h _ rest rfl).2.1
      case Minus => exact absurd rfl (h _ rest rfl).2.2
      all_goals rfl

/-! Single-step unfolding lemmas for the parser, used to drive the
round-trip proof. -/

theorem parseF_term_step (f : Nat) (ts : List Tok) {e : Expr}
    {rest' : List Tok} (h : parseF f .atom ts = some (e, rest')) :
    parseF (f + 1) .term ts = parseF f (.termLoop e) rest' := by
  show (match parseF f .atom ts with
    | some (e, rest) => parseF f (.termLoop e) rest
    | none => none) = _
  rw [h]

theorem parseF_union_step (f : Nat) (ts : List Tok) {e : Expr}
    {rest' : List Tok} (h : parseF f .term ts = some (e, rest')) :
    parseF (f + 1) .union ts = parseF f (.unionLoop e) rest' := by
  show (match parseF f .term ts with
    | some (e, rest) => parseF f (.unionLoop e) rest
    | none => none) = _
  rw [h]

theorem parseF_termLoop_amp (f : Nat) (acc : Expr) (ts : List Tok) {e : Expr}
    {rest' : List Tok} (h : parseF f .atom ts = some (e, rest')) :
    parseF (f + 1) (.termLoop acc) (Tok.Ampersand :: ts)
      = parseF f (.termLoop (.Intersection acc e)) rest' := by
  show (match parseF f .atom ts with
    | some (e, rest') => parseF f (.termLoop (.Intersection acc e)) rest'
    | none => none) = _
  rw [h]

theorem parseF_unionLoop_pipe (f : Nat) (acc : Expr) (ts : List Tok)
    {e : Expr} {rest' : List Tok} (h : parseF f .term ts = some (e, rest')) :
    parseF (f + 1) (.unionLoop acc) (Tok.Pipe :: ts)
      = parseF f (.unionLoop (.Union acc e)) rest' := by
  show (match parseF f .term ts with
    | some (e, rest') => parseF f (.unionLoop (.Union acc e)) rest'
    | none => none) = _
  rw [h]

theorem parseF_unionLoop_minus (f : Nat) (acc : Expr) (ts : List Tok)
    {e : Expr} {rest' : List Tok} (h : parseF f .term ts = some (e, rest')) :
    parseF (f + 1) (.unionLoop acc) (Tok.Minus :: ts)
      = parseF f (.unionLoop (.Difference acc e)) rest' := by
  show (match parseF f .term ts with
    | some (e, rest') => parseF f (.unionLoop (.Difference acc e)) rest'
    | none => none) = _
  rw [h]

theorem parseF_atom_paren (f : Nat) (ts : List Tok) {e : Expr}
    {rest' : List Tok}
    (h : parseF f .union ts = some (e, Tok.RightParen :: rest')) :
    parseF (f + 1) .atom (Tok.LeftParen :: ts) = some (e, rest') := by
  show (match parseF f .union ts with
    | some (e, Tok.RightParen :: rest') => some (e, rest')
    | _ => none) = _
  rw [h]

/-- A rendered expression is always an `atom` (leaves are single literal
tokens, binary nodes are parenthesized), and the atom parser consumes
exactly its tokens, for any following tokens and any sufficient fuel. -/
theorem parseF_atom_toks :
    ∀ (e : Expr) (extra : Nat) (rest : List Tok),
      parseF (FA e + extra) .atom (toks e ++ rest) = some (e, rest) := by
  intro e
  induction e with
  | StringLiteral s =>
      intro extra rest
      rw [show FA (Expr.StringLiteral s) + extra = extra + 1 by
        rw [FA]; omega]
      rfl
  | UnknownID s =>
      intro extra rest
      rw [show FA (Expr.UnknownID s) + extra = extra + 1 by rw [FA]; omega]
      rfl
  | UserID n =>
      intro extra rest
      rw [show FA (Expr.UserID n) + extra = extra + 1 by rw [FA]; omega]
      show some (Expr.UserID (natOfChars (String.mk (charsOfNat n)).toList),
        rest) = some (Expr.UserID n, rest)
      rw [show (String.mk (charsOfNat n)).toList = charsOfNat n from rfl,
        natOfChars_charsOfNat]
  | RoleID n =>
      intro extra rest
      rw [show FA (Expr.RoleID n) + extra = extra + 1 by rw [FA]; omega]
      show some (Expr.RoleID (natOfChars (String.mk (charsOfNat n)).toList),
        rest) = some (Expr.RoleID n, rest)
      rw [show (String.mk (charsOfNat n)).toList = charsOfNat n from rfl,
        natOfChars_charsOfNat]
  | Union l r ihl ihr =>
      intro extra rest
      have h1 : parseF (FA l + FA r + 2 + extra) .atom
          (toks l ++ (Tok.Pipe :: (toks r ++ (Tok.RightParen :: rest))))
          = some (l, Tok.Pipe :: (toks r ++ (Tok.RightParen :: rest))) := by
        have := ihl (FA r + 2 + extra)
          (Tok.Pipe :: (toks r ++ (Tok.RightParen :: rest)))
        rw [show FA l + (FA r + 2 + extra) = FA l + FA r + 2 + extra by
          omega] at this
        exact this
      have h2 : parseF (FA l + FA r + 3 + extra) .term
          (toks l ++ (Tok.Pipe :: (toks r ++ (Tok.RightParen :: rest))))
          = some (l, Tok.Pipe :: (toks r ++ (Tok.RightParen :: rest))) := by
        rw [show FA l + FA r + 3 + extra = (FA l + FA r + 2 + extra) + 1 by
          omega]
        rw [parseF_term_step _ _ h1]
        rw [show FA l + FA r + 2 + extra = (FA l + FA r + 1 + extra) + 1 by
          omega]
        exact parseF_termLoop_stop _ _ _
          (by intro t rest' ht; cases ht; decide)
      have h3 : parseF (FA l + FA r + 1 + extra) .atom
          (toks r ++ (Tok.RightParen :: rest))
          = some (r, Tok.RightParen :: rest) := by
        have := ihr (FA l + 1 + extra) (Tok.RightParen :: rest)
        rw [show FA r + (FA l + 1 + extra) = FA l + FA r + 1 + extra by
          omega] at this
        exact this
      have h4 : parseF (FA l + FA r + 2 + extra) .term
          (toks r ++ (Tok.RightParen :: rest))
          = some (r, Tok.RightParen :: rest) := by
        rw [show FA l + FA r + 2 + extra = (FA l + FA r + 1 + extra) + 1 by
          omega]
        rw [parseF_term_step _ _ h3]
        rw [show FA l + FA r + 1 + extra = (FA l + FA r + extra) + 1 by
          omega]
        exact parseF_termLoop_stop _ _ _
          (by intro t rest' ht; cases ht; decide)
      have h5 : parseF (FA l + FA r + 3 + extra) (.unionLoop l)
          (Tok.Pipe :: (toks r ++ (Tok.RightParen :: rest)))
          = some (Expr.Union l r, Tok.RightParen :: rest) := by
        rw [show FA l + FA r + 3 + extra = (FA l + FA r + 2 + extra) + 1 by
          omega]
        rw [parseF_unionLoop_pipe _ _ _ h4]
        rw [show FA l + FA r + 2 + extra = (FA l + FA r + 1 + extra) + 1 by
          omega]
        exact parseF_unionLoop_stop _ _ _
          (by intro t rest' ht; cases ht; decide)
      have h6 : parseF (FA l + FA r + 4 + extra) .union
          (toks l ++ (Tok.Pipe :: (toks r ++ (Tok.RightParen :: rest))))
          = some (Expr.Union l r, Tok.RightParen :: rest) := by
        rw [show FA l + FA r + 4 + extra = (FA l + FA r + 3 + extra) + 1 by
          omega]
        rw [parseF_union_step _ _ h2]
        exact h5
      have hlist : toks (Expr.Union l r) ++ rest
          = Tok.LeftParen ::
            (toks l ++ (Tok.Pipe :: (toks r ++ (Tok.RightParen :: rest)))) := by
        rw [toks]
        simp [List.cons_append, List.append_assoc]
      rw [hlist]
      rw [show FA (Expr.Union l r) + extra = (FA l + FA r + 4 + extra) + 1 by
        rw [FA]; omega]
      exact parseF_atom_paren _ _ h6
  | Intersection l r ihl ihr =>
      intro extra rest
      have h1 : parseF (FA l + FA r + 2 + extra) .atom
          (toks l ++ (Tok.Ampersand :: (toks r ++ (Tok.RightParen :: rest))))
          = some (l, Tok.Ampersand :: (toks r ++ (Tok.RightParen :: rest))) := by
        have := ihl (FA r + 2 + extra)
          (Tok.Ampersand :: (toks r ++ (Tok.RightParen :: rest)))
        rw [show FA l + (FA r + 2 + extra) = FA l + FA r + 2 + extra by
          omega] at this
        exact this
      have h3 : parseF (FA l + FA r + 1 + extra) .atom
          (toks r ++ (Tok.RightParen :: rest))
          = some (r, Tok.RightParen :: rest) := by
        have := ihr (FA l + 1 + extra) (Tok.RightParen :: rest)
        rw [show FA r + (FA l + 1 + extra) = FA l + FA r + 1 + extra by
          omega] at this
        exact this
      have hterm : parseF (FA l + FA r + 3 + extra) .term
          (toks l ++ (Tok.Ampersand :: (toks r ++ (Tok.RightParen :: rest))))
          = some (Expr.Intersection l r, Tok.RightParen :: rest) := by
        rw [show FA l + FA r + 3 + extra = (FA l + FA r + 2 + extra) + 1 by
          omega]
        rw [parseF_term_step _ _ h1]
        rw [show FA l + FA r + 2 + extra = (FA l + FA r + 1 + extra) + 1 by
          omega]
        rw [parseF_termLoop_amp _ _ _ h3]
        rw [show FA l + FA r + 1 + extra = (FA l + FA r + extra) + 1 by
          omega]
        exact parseF_termLoop_stop _ _ _
          (by intro t rest' ht; cases ht; decide)
      have h6 : parseF (FA l + FA r + 4 + extra) .union
          (toks l ++ (Tok.Ampersand :: (toks r ++ (Tok.RightParen :: rest))))
          = some (Expr.Intersection l r, Tok.RightParen :: rest) := by
        rw [show FA l + FA r + 4 + extra = (FA l + FA r + 3 + extra) + 1 by
          omega]
        rw [parseF_union_step _ _ hterm]
        rw [show FA l + FA r + 3 + extra = (FA l + FA r + 2 + extra) + 1 by
          omega]
        exact parseF_unionLoop_stop _ _ _
          (by intro t rest' ht; cases ht; decide)
      have hlist : toks (Expr.Intersection l r) ++ rest
          = Tok.LeftParen :: (toks l ++
            (Tok.Ampersand :: (toks r ++ (Tok.RightParen :: rest)))) := by
        rw [toks]
        simp [List.cons_append, List.append_assoc]
      rw [hlist]
      rw [show FA (Expr.Intersection l r) + extra
          = (FA l + FA r + 4 + extra) + 1 by rw [FA]; omega]
      exact parseF_atom_paren _ _ h6
  | Difference l r ihl ihr =>
      intro extra rest
      have h1 : parseF (FA l + FA r + 2 + extra) .atom
          (toks l ++ (Tok.Minus :: (toks r ++ (Tok.RightParen :: rest))))
          = some (l, Tok.Minus :: (toks r ++ (Tok.RightParen :: rest))) := by
        have := ihl (FA r + 2 + extra)
          (Tok.Minus :: (toks r ++ (Tok.RightParen :: rest)))
        rw [show FA l + (FA r + 2 + extra) = FA l + FA r + 2 + extra by
          omega] at this
        exact this
      have h2 : parseF (FA l + FA r + 3 + extra) .term
          (toks l ++ (Tok.Minus :: (toks r ++ (Tok.RightParen :: rest))))
          = some (l, Tok.Minus :: (toks r ++ (Tok.RightParen :: rest))) := by
        rw [show FA l + FA r + 3 + extra = (FA l + FA r + 2 + extra) + 1 by
          omega]
        rw [parseF_term_step _ _ h1]
        rw [show FA l + FA r + 2 + extra = (FA l + FA r + 1 + extra) + 1 by
          omega]
        exact parseF_termLoop_stop _ _ _
          (by intro t rest' ht; cases ht; decide)
      have h3 : parseF (FA l + FA r + 1 + extra) .atom
          (toks r ++ (Tok.RightParen :: rest))
          = some (r, Tok.RightParen :: rest) := by
        have := ihr (FA l + 1 + extra) (Tok.RightParen :: rest)
        rw [show FA r + (FA l + 1 + extra) = FA l + FA r + 1 + extra by
          omega] at this
        exact this
      have h4 : parseF (FA l + FA r + 2 + extra) .term
          (toks r ++ (Tok.RightParen :: rest))
          = some (r, Tok.RightParen :: rest) := by
        rw [show FA l + FA r + 2 + extra = (FA l + FA r + 1 + extra) + 1 by
          omega]
        rw [parseF_term_step _ _ h3]
        rw [show FA l + FA r + 1 + extra = (FA l + FA r + extra) + 1 by
          omega]
        exact parseF_termLoop_stop _ _ _
          (by intro t rest' ht; cases ht; decide)
      have h5 : parseF (FA l + FA r + 3 + extra) (.unionLoop l)
          (Tok.Minus :: (toks r ++ (Tok.RightParen :: rest)))
          = some (Expr.Difference l r, Tok.RightParen :: rest) := by
        rw [show FA l + FA r + 3 + extra = (FA l + FA r + 2 + extra) + 1 by
          omega]
        rw [parseF_unionLoop_minus _ _ _ h4]
        rw [show FA l + FA r + 2 + extra = (FA l + FA r + 1 + extra) + 1 by
          omega]
        exact parseF_unionLoop_stop _ _ _
          (by intro t rest' ht; cases ht; decide)
      have h6 : parseF (FA l + FA r + 4 + extra) .union
          (toks l ++ (Tok.Minus :: (toks r ++ (Tok.RightParen :: rest))))
          = some (Expr.Difference l r, Tok.RightParen :: rest) := by
        rw [show FA l + FA r + 4 + extra = (FA l + FA r + 3 + extra) + 1 by
          omega]
        rw [parseF_union_step _ _ h2]
        exact h5
      have hlist : toks (Expr.Difference l r) ++ rest
          = Tok.LeftParen :: (toks l ++
            (Tok.Minus :: (toks r ++ (Tok.RightParen :: rest)))) := by
        rw [toks]
        simp [List.cons_append, List.append_assoc]
      rw [hlist]
      rw [show FA (Expr.Difference l r) + extra
          = (FA l + FA r + 4 + extra) + 1 by rw [FA]; omega]
      exact parseF_atom_paren _ _ h6

/-! ## Lexer lemmas (for C2)

`lexA pos s` is the lexer run with its canonical fuel (`tokenize` uses it
at position 0); the stability lemma shows any sufficient fuel gives the
same output, so the compositional lemmas below can re-normalize fuel after
each consumed token. -/

/-- The lexer with canonical fuel. -/
def lexA (pos : Nat) (s : List Char) : List (LexicalError ⊕ Tok) :=
  lexF (s.length + 1) pos s

theorem scanStringAux_false_quote (rest : List Char) :
    scanStringAux false ('"' :: rest) = some ([], rest) := rfl

theorem scanStringAux_false_esc (rest : List Char) :
    scanStringAux false ('\\' :: rest)
      = (scanStringAux true rest).map fun p => ('\\' :: p.1, p.2) := rfl

theorem scanStringAux_true_cons (c : Char) (rest : List Char) :
    scanStringAux true (c :: rest)
      = (scanStringAux false rest).map fun p => (c :: p.1, p.2) := rfl

theorem scanStringAux_false_other {c : Char} (hq : ¬ c = '"')
    (hbs : ¬ c = '\\') (rest : List Char) :
    scanStringAux false (c :: rest)
      = (scanStringAux false rest).map fun p => (c :: p.1, p.2) := by
  show (if c = '"' then some ([], rest)
    else if c = '\\' then (scanStringAux true rest).map fun p => (c :: p.1, p.2)
    else (scanStringAux false rest).map fun p => (c :: p.1, p.2)) = _
  rw [if_neg hq, if_neg hbs]

theorem scanStringAux_eq : ∀ (t : List Char) (b : Bool) {i r : List Char},
    scanStringAux b t = some (i, r) → t = i ++ '"' :: r := by
  intro t
  induction t with
  | nil =>
      intro b i r h
      cases b <;> simp [scanStringAux] at h
  | cons c rest ih =>
      intro b i r h
      cases b with
      | true =>
          rw [scanStringAux_true_cons, Option.map_eq_some'] at h
          obtain ⟨p, hp, heq⟩ := h
          rw [Prod.mk.injEq] at heq
          have hrec := ih false (i := p.1) (r := p.2) (by rw [hp])
          rw [← heq.1, ← heq.2]
          simp [hrec]
      | false =>
          by_cases hq : c = '"'
          · subst hq
            rw [scanStringAux_false_quote] at h
            simp only [Option.some.injEq, Prod.mk.injEq] at h
            rw [← h.1, ← h.2]
            rfl
          · by_cases hbs : c = '\\'
            · subst hbs
              rw [scanStringAux_false_esc, Option.map_eq_some'] at h
              obtain ⟨p, hp, heq⟩ := h
              rw [Prod.mk.injEq] at heq
              have hrec := ih true (i := p.1) (r := p.2) (by rw [hp])
              rw [← heq.1, ← heq.2]
              simp [hrec]
            · rw [scanStringAux_false_other hq hbs, Option.map_eq_some'] at h
              obtain ⟨p, hp, heq⟩ := h
              rw [Prod.mk.injEq] at heq
              have hrec := ih false (i := p.1) (r := p.2) (by rw [hp])
              rw [← heq.1, ← heq.2]
              simp [hrec]

theorem scanString_eq {t i r : List Char} (h : scanString t = some (i, r)) :
    t = i ++ '"' :: r :=
  scanStringAux_eq t false h

theorem scanStringAux_append : ∀ (cs : List Char) (b : Bool),
    unitsOkF b cs = true → ∀ (rest : List Char),
    scanStringAux b (cs ++ '"' :: rest) = some (cs, rest) := by
  intro cs
  induction cs with
  | nil =>
      intro b hu rest
      cases b with
      | true => exact absurd hu (by
          rw [show unitsOkF true [] = false from rfl]; simp)
      | false => rw [List.nil_append, scanStringAux_false_quote]
  | cons c cs' ih =>
      intro b hu rest
      cases b with
      | true =>
          have hu' : unitsOkF false cs' = true := hu
          rw [List.cons_append, scanStringAux_true_cons, ih false hu' rest]
          rfl
      | false =>
          replace hu : (if c = '"' then false
            else if c = '\\' then unitsOkF true cs'
            else unitsOkF false cs') = true := hu
          by_cases hq : c = '"'
          · rw [if_pos hq] at hu
            exact absurd hu (by simp)
          · rw [if_neg hq] at hu
            by_cases hbs : c = '\\'
            · rw [if_pos hbs] at hu
              subst hbs
              rw [List.cons_append, scanStringAux_false_esc, ih true hu rest]
              rfl
            · rw [if_neg hbs] at hu
              rw [List.cons_append, scanStringAux_false_other hq hbs,
                ih false hu rest]
              rfl

/-- A body of well-formed units followed by a closing quote scans to
exactly that body (escapes and all, the payload is the raw slice). -/
theorem scanString_append (cs : List Char) (hu : unitsOk cs = true)
    (rest : List Char) : scanString (cs ++ '"' :: rest) = some (cs, rest) :=
  scanStringAux_append cs false hu rest

theorem length_dropWhile_le {p : Char → Bool} {s : List Char} :
    (s.dropWhile p).length ≤ s.length := by
  have h := congrArg List.length (List.takeWhile_append_dropWhile p s)
  rw [List.length_append] at h
  omega

theorem mentionTail_rest {mk : String → Tok} {p extra : Nat}
    {src fullRest : List Char} {r pos' s'}
    (h : mentionTail mk p extra src fullRest = some (r, pos', s')) :
    s' = (src.dropWhile Char.isDigit).tail ∨ s' = fullRest := by
  rw [mentionTail] at h
  split at h
  · simp only [Option.some.injEq, Prod.mk.injEq] at h
    exact Or.inl h.2.2.symm
  · simp only [Option.some.injEq, Prod.mk.injEq] at h
    exact Or.inr h.2.2.symm

/-- One `lexCore` step always consumes at least one character. -/
theorem lexCore_consumes : ∀ {p : Nat} {t : List Char} {r p' s'},
    lexCore p t = some (r, p', s') → s'.length < t.length := by
  intro p t r p' s' h
  cases t with
  | nil => simp [lexCore] at h
  | cons c rest =>
      rw [lexCore] at h
      have htail : ∀ (t : List Char), t.tail.length ≤ t.length := by
        intro t; cases t <;> simp
      have hdwd : ∀ (t : List Char),
          (t.dropWhile Char.isDigit).length ≤ t.length := fun t =>
        length_dropWhile_le
      simp only [List.length_cons]
      by_cases h1 : c = '+'
      · rw [if_pos h1] at h
        simp only [Option.some.injEq, Prod.mk.injEq] at h
        rw [← h.2.2]; omega
      rw [if_neg h1] at h
      by_cases h2 : c = '-'
      · rw [if_pos h2] at h
        simp only [Option.some.injEq, Prod.mk.injEq] at h
        rw [← h.2.2]; omega
      rw [if_neg h2] at h
      by_cases h3 : c = '|'
      · rw [if_pos h3] at h
        simp only [Option.some.injEq, Prod.mk.injEq] at h
        rw [← h.2.2]; omega
      rw [if_neg h3] at h
      by_cases h4 : c = '&'
      · rw [if_pos h4] at h
        simp only [Option.some.injEq, Prod.mk.injEq] at h
        rw [← h.2.2]; omega
      rw [if_neg h4] at h
      by_cases h5 : c = '('
      · rw [if_pos h5] at h
        simp only [Option.some.injEq, Prod.mk.injEq] at h
        rw [← h.2.2]; omega
      rw [if_neg h5] at h
      by_cases h6 : c = ')'
      · rw [if_pos h6] at h
        simp only [Option.some.injEq, Prod.mk.injEq] at h
        rw [← h.2.2]; omega
      rw [if_neg h6] at h
      by_cases h7 : c = '"'
      · rw [if_pos h7] at h
        cases hs : scanString rest with
        | none =>
            rw [hs] at h
            simp only [Option.some.injEq, Prod.mk.injEq] at h
            rw [← h.2.2]
            simp
        | some pr =>
            rw [hs] at h
            simp only [Option.some.injEq, Prod.mk.injEq] at h
            have heq := scanString_eq (i := pr.1) (r := pr.2) (by rw [hs])
            rw [← h.2.2]
            have hlen : pr.2.length < rest.length + 1 := by
              rw [heq]
              simp
              omega
            omega
      rw [if_neg h7] at h
      by_cases h8 : c = '<'
      · rw [if_pos h8] at h
        by_cases h8a : rest.head? = some '@'
        · rw [if_pos h8a] at h
          by_cases h8b : rest.tail.head? = some '&'
          · rw [if_pos h8b] at h
            rcases mentionTail_rest h with hr | hr <;> rw [hr]
            · have ha := hdwd rest.tail.tail
              have hb := htail (rest.tail.tail.dropWhile Char.isDigit)
              have hc := htail rest
              have hd := htail rest.tail
              omega
            · omega
          rw [if_neg h8b] at h
          by_cases h8c : rest.tail.head? = some '!'
          · rw [if_pos h8c] at h
            rcases mentionTail_rest h with hr | hr <;> rw [hr]
            · have ha := hdwd rest.tail.tail
              have hb := htail (rest.tail.tail.dropWhile Char.isDigit)
              have hc := htail rest
              have hd := htail rest.tail
              omega
            · omega
          rw [if_neg h8c] at h
          rcases mentionTail_rest h with hr | hr <;> rw [hr]
          · have ha := hdwd rest.tail
            have hb := htail (rest.tail.dropWhile Char.isDigit)
            have hc := htail rest
            omega
          · omega
        rw [if_neg h8a] at h
        simp only [Option.some.injEq, Prod.mk.injEq] at h
        rw [← h.2.2]; omega
      rw [if_neg h8] at h
      by_cases h9 : c = '@'
      · rw [if_pos h9] at h
        by_cases h9a : rest.take 8 = "everyone".toList
        · rw [if_pos h9a] at h
          simp only [Option.some.injEq, Prod.mk.injEq] at h
          rw [← h.2.2]
          have : (rest.drop 8).length ≤ rest.length := by simp
          omega
        rw [if_neg h9a] at h
        by_cases h9b : rest.take 4 = "here".toList
        · rw [if_pos h9b] at h
          simp only [Option.some.injEq, Prod.mk.injEq] at h
          rw [← h.2.2]
          have : (rest.drop 4).length ≤ rest.length := by simp
          omega
        rw [if_neg h9b] at h
        simp only [Option.some.injEq, Prod.mk.injEq] at h
        rw [← h.2.2]; omega
      rw [if_neg h9] at h
      by_cases h10 : c.isDigit = true
      · rw [if_pos h10] at h
        simp only [Option.some.injEq, Prod.mk.injEq] at h
        rw [← h.2.2]
        rw [List.dropWhile_cons_of_pos (by simpa using h10)]
        have := hdwd rest
        omega
      rw [if_neg h10] at h
      by_cases h11 : identStart c = true
      · rw [if_pos h11] at h
        simp only [Option.some.injEq, Prod.mk.injEq] at h
        rw [← h.2.2]
        rw [List.dropWhile_cons_of_pos
          (by simp only [identChar]
              simp only [identStart, Bool.or_eq_true,
                decide_eq_true_eq] at h11
              rcases h11 with ha | ha
              · simp [Char.isAlphanum, ha]
              · simp [Char.isAlphanum, ha])]
        have : (rest.dropWhile identChar).length ≤ rest.length :=
          length_dropWhile_le
        omega
      rw [if_neg h11] at h
      simp only [Option.some.injEq, Prod.mk.injEq] at h
      rw [← h.2.2]; omega

theorem lexStep_consumes {pos : Nat} {s : List Char} {r pos' s'}
    (h : lexStep pos s = some (r, pos', s')) : s'.length < s.length := by
  rw [lexStep] at h
  have h1 := lexCore_consumes h
  have h2 : (s.dropWhile isWs).length ≤ s.length := length_dropWhile_le
  omega

/-- The output does not depend on the fuel, once the fuel exceeds the
number of remaining characters. -/
theorem lexF_stable_aux : ∀ (n f f' pos : Nat) (s : List Char),
    s.length ≤ n → s.length < f → s.length < f' →
    lexF f pos s = lexF f' pos s := by
  intro n
  induction n with
  | zero =>
      intro f f' pos s hn hf hf'
      rw [List.length_eq_zero.mp (Nat.le_zero.mp hn)]
      obtain ⟨a, rfl⟩ : ∃ a, f = a + 1 := ⟨f - 1, by omega⟩
      obtain ⟨b, rfl⟩ : ∃ b, f' = b + 1 := ⟨f' - 1, by omega⟩
      rfl
  | succ n ih =>
      intro f f' pos s hn hf hf'
      obtain ⟨a, rfl⟩ : ∃ a, f = a + 1 := ⟨f - 1, by omega⟩
      obtain ⟨b, rfl⟩ : ∃ b, f' = b + 1 := ⟨f' - 1, by omega⟩
      cases h : lexStep pos s with
      | none =>
          show (match lexStep pos s with
            | none => []
            | some (r, pos', s') => r :: lexF a pos' s')
            = (match lexStep pos s with
            | none => []
            | some (r, pos', s') => r :: lexF b pos' s')
          rw [h]
      | some trip =>
          obtain ⟨r, pos', s'⟩ := trip
          have hcons := lexStep_consumes h
          show (match lexStep pos s with
            | none => []
            | some (r, pos', s') => r :: lexF a pos' s')
            = (match lexStep pos s with
            | none => []
            | some (r, pos', s') => r :: lexF b pos' s')
          rw [h]
          show r :: lexF a pos' s' = r :: lexF b pos' s'
          have := ih a b pos' s' (by omega) (by omega) (by omega)
          rw [this]

theorem lexF_eq_lexA {f pos : Nat} {s : List Char} (h : s.length < f) :
    lexF f pos s = lexA pos s :=
  lexF_stable_aux s.length f (s.length + 1) pos s le_rfl h (by omega)

theorem lexA_step {pos : Nat} {s : List Char} {r pos' s'}
    (h : lexStep pos s = some (r, pos', s')) :
    lexA pos s = r :: lexA pos' s' := by
  rw [lexA]
  show (match lexStep pos s with
    | none => []
    | some (r, pos', s') => r :: lexF s.length pos' s') = _
  rw [h]
  show r :: lexF s.length pos' s' = r :: lexA pos' s'
  rw [lexF_eq_lexA (lexStep_consumes h)]

theorem lexA_nil (pos : Nat) : lexA pos [] = [] := rfl

theorem lexStep_ws {c : Char} (hc : isWs c = true) (pos : Nat)
    (s : List Char) : lexStep pos (c :: s) = lexStep (pos + 1) s := by
  rw [lexStep, lexStep]
  rw [List.takeWhile_cons_of_pos hc, List.dropWhile_cons_of_pos hc]
  rw [List.length_cons]
  rw [show pos + ((s.takeWhile isWs).length + 1)
      = pos + 1 + (s.takeWhile isWs).length from by omega]

theorem lexA_ws {c : Char} (hc : isWs c = true) (pos : Nat)
    (s : List Char) : lexA pos (c :: s) = lexA (pos + 1) s := by
  cases h : lexStep (pos + 1) s with
  | none =>
      rw [lexA, lexA]
      show (match lexStep pos (c :: s) with
        | none => []
        | some (r, pos', s') => r :: lexF (c :: s).length pos' s') = _
      rw [lexStep_ws hc, h]
      show _ = (match lexStep (pos + 1) s with
        | none => []
        | some (r, pos', s') => r :: lexF s.length pos' s')
      rw [h]
  | some trip =>
      obtain ⟨r, pos', s'⟩ := trip
      rw [lexA_step (by rw [lexStep_ws hc]; exact h), lexA_step h]

/-! ## Re-lexing a rendered expression (for C2)

A rendered subexpression is followed, in the rendering of the whole tree,
only by the end of the input, a space before a binary operator, or a
closing parenthesis; none of these can extend the token the subexpression
ends with. -/

/-- The characters that may follow a rendered subexpression. -/
def bdryOk : List Char → Prop
  | [] => True
  | c :: _ => c = ' ' ∨ c = ')'

theorem takeWhile_dropWhile_append (p : Char → Bool) :
    ∀ (cs rest : List Char), cs.all p = true →
    (∀ b t, rest = b :: t → p b = false) →
    (cs ++ rest).takeWhile p = cs ∧ (cs ++ rest).dropWhile p = rest := by
  intro cs
  induction cs with
  | nil =>
      intro rest _ hr
      cases rest with
      | nil => exact ⟨rfl, rfl⟩
      | cons b t =>
          rw [List.nil_append]
          exact ⟨List.takeWhile_cons_of_neg (by simp [hr b t rfl]),
                 List.dropWhile_cons_of_neg (by simp [hr b t rfl])⟩
  | cons c cs ih =>
      intro rest hall hr
      simp only [List.all_cons, Bool.and_eq_true] at hall
      have h := ih rest hall.2 hr
      rw [List.cons_append]
      exact ⟨by rw [List.takeWhile_cons_of_pos hall.1, h.1],
             by rw [List.dropWhile_cons_of_pos hall.1, h.2]⟩

theorem identStart_not_special {c : Char} (h : identStart c = true) :
    c ≠ '+' ∧ c ≠ '-' ∧ c ≠ '|' ∧ c ≠ '&' ∧ c ≠ '(' ∧ c ≠ ')' ∧
      c ≠ '"' ∧ c ≠ '<' ∧ c ≠ '@' := by
  refine ⟨?_, ?_, ?_, ?_, ?_, ?_, ?_, ?_, ?_⟩
  all_goals (rintro rfl; revert h; decide)

theorem isDigit_not_special {c : Char} (h : c.isDigit = true) :
    c ≠ '+' ∧ c ≠ '-' ∧ c ≠ '|' ∧ c ≠ '&' ∧ c ≠ '(' ∧ c ≠ ')' ∧
      c ≠ '"' ∧ c ≠ '<' ∧ c ≠ '@' := by
  refine ⟨?_, ?_, ?_, ?_, ?_, ?_, ?_, ?_, ?_⟩
  all_goals (rintro rfl; revert h; decide)

theorem not_ws_of_identStart {c : Char} (h : identStart c = true) :
    isWs c = false := by
  cases hw : isWs c with
  | false => rfl
  | true =>
      exfalso
      simp only [isWs, Bool.or_eq_true, decide_eq_true_eq] at hw
      rcases hw with ((((rfl | rfl) | rfl) | rfl) | rfl) <;>
        revert h <;> decide

theorem not_ws_of_isDigit {c : Char} (h : c.isDigit = true) :
    isWs c = false := by
  cases hw : isWs c with
  | false => rfl
  | true =>
      exfalso
      simp only [isWs, Bool.or_eq_true, decide_eq_true_eq] at hw
      rcases hw with ((((rfl | rfl) | rfl) | rfl) | rfl) <;>
        revert h <;> decide

theorem bareChar_eq_identChar : bareChar = identChar := rfl

theorem identStart_of_bare {c : Char} (hb : bareChar c = true)
    (hd : c.isDigit = false) : identStart c = true := by
  simp only [bareChar, Bool.or_eq_true, decide_eq_true_eq] at hb
  simp only [identStart, Bool.or_eq_true, decide_eq_true_eq]
  rcases hb with hb | hb
  · simp only [Char.isAlphanum, Bool.or_eq_true] at hb
    rcases hb with hb | hb
    · exact Or.inl hb
    · rw [hb] at hd
      exact Bool.noConfusion hd
  · exact Or.inr hb

theorem bdry_not_identChar {rest : List Char} (h : bdryOk rest) :
    ∀ b t, rest = b :: t → identChar b = false := by
  rintro b t rfl
  replace h : b = ' ' ∨ b = ')' := h
  rcases h with rfl | rfl <;> decide

theorem bdry_not_digit {rest : List Char} (h : bdryOk rest) :
    ∀ b t, rest = b :: t → b.isDigit = false := by
  rintro b t rfl
  replace h : b = ' ' ∨ b = ')' := h
  rcases h with rfl | rfl <;> decide

theorem lexStep_not_ws (c : Char) (hc : isWs c = false) (pos : Nat)
    (s : List Char) : lexStep pos (c :: s) = lexCore pos (c :: s) := by
  rw [lexStep, List.takeWhile_cons_of_neg (by simp [hc]),
      List.dropWhile_cons_of_neg (by simp [hc])]
  simp

theorem lexCore_pipe (pos : Nat) (s : List Char) :
    lexCore pos ('|' :: s) = some (.inr .Pipe, pos + 1, s) := rfl

theorem lexCore_amp (pos : Nat) (s : List Char) :
    lexCore pos ('&' :: s) = some (.inr .Ampersand, pos + 1, s) := rfl

theorem lexCore_minus (pos : Nat) (s : List Char) :
    lexCore pos ('-' :: s) = some (.inr .Minus, pos + 1, s) := rfl

theorem lexCore_lparen (pos : Nat) (s : List Char) :
    lexCore pos ('(' :: s) = some (.inr .LeftParen, pos + 1, s) := rfl

theorem lexCore_rparen (pos : Nat) (s : List Char) :
    lexCore pos (')' :: s) = some (.inr .RightParen, pos + 1, s) := rfl

/-- A bare identifier lexes to one `StringLiteral` token with the raw
payload, up to the first non-identifier character. -/
theorem lexCore_ident (pos : Nat) (c : Char) (cs rest : List Char)
    (hs : identStart c = true) (hd : c.isDigit = false)
    (hall : (c :: cs).all identChar = true)
    (hr : ∀ b t, rest = b :: t → identChar b = false) :
    lexCore pos (c :: (cs ++ rest))
      = some (.inr (.StringLiteral (String.mk (c :: cs))),
          pos + (c :: cs).length, rest) := by
  obtain ⟨n1, n2, n3, n4, n5, n6, n7, n8, n9⟩ := identStart_not_special hs
  rw [lexCore, if_neg n1, if_neg n2, if_neg n3, if_neg n4, if_neg n5,
    if_neg n6, if_neg n7, if_neg n8, if_neg n9,
    if_neg (by simp [hd]), if_pos hs]
  have h := takeWhile_dropWhile_append identChar (c :: cs) rest hall hr
  rw [← List.cons_append, h.1, h.2]

/-- A bare digit run lexes to one `IDLiteral` token with the raw payload,
up to the first non-digit character. -/
theorem lexCore_digits (pos : Nat) (c : Char) (cs rest : List Char)
    (hall : (c :: cs).all Char.isDigit = true)
    (hr : ∀ b t, rest = b :: t → b.isDigit = false) :
    lexCore pos (c :: (cs ++ rest))
      = some (.inr (.IDLiteral (String.mk (c :: cs))),
          pos + (c :: cs).length, rest) := by
  have hc : c.isDigit = true := by
    simp only [List.all_cons, Bool.and_eq_true] at hall
    exact hall.1
  obtain ⟨n1, n2, n3, n4, n5, n6, n7, n8, n9⟩ := isDigit_not_special hc
  rw [lexCore, if_neg n1, if_neg n2, if_neg n3, if_neg n4, if_neg n5,
    if_neg n6, if_neg n7, if_neg n8, if_neg n9, if_pos hc]
  have h := takeWhile_dropWhile_append Char.isDigit (c :: cs) rest hall hr
  rw [← List.cons_append, h.1, h.2]

/-- A quoted body of well-formed units lexes to one `StringLiteral` token
with the raw (unescaped) payload. -/
theorem lexCore_quoted (pos : Nat) (cs rest : List Char)
    (hu : unitsOk cs = true) :
    lexCore pos ('"' :: (cs ++ '"' :: rest))
      = some (.inr (.StringLiteral (String.mk cs)),
          pos + cs.length + 2, rest) := by
  rw [lexCore, if_neg (by decide), if_neg (by decide), if_neg (by decide),
    if_neg (by decide), if_neg (by decide), if_neg (by decide), if_pos rfl]
  rw [scanString_append cs hu rest]

/-- A rendered user mention lexes to one `UserMention` token whose payload
is the digit run. -/
theorem lexCore_user_mention (pos : Nat) (n : Nat) (rest : List Char) :
    lexCore pos ('<' :: '@' :: (charsOfNat n ++ '>' :: rest))
      = some (.inr (.UserMention (String.mk (charsOfNat n))),
          pos + (charsOfNat n).length + 3, rest) := by
  obtain ⟨d, ds, hds⟩ : ∃ d ds, charsOfNat n = d :: ds := by
    cases h : charsOfNat n with
    | nil => exact absurd h (charsOfNat_ne_nil n)
    | cons d ds => exact ⟨d, ds, rfl⟩
  have hall : (d :: ds).all Char.isDigit = true := by
    rw [← hds]
    exact List.all_eq_true.mpr fun c hc => charsOfNat_isDigit n c hc
  have hd : d.isDigit = true := by
    simp only [List.all_cons, Bool.and_eq_true] at hall
    exact hall.1
  have htd := takeWhile_dropWhile_append Char.isDigit (d :: ds) ('>' :: rest)
    hall (by rintro b t hb; injection hb with hb1 _; rw [← hb1]; decide)
  rw [hds]
  rw [lexCore, if_neg (by decide), if_neg (by decide), if_neg (by decide),
    if_neg (by decide), if_neg (by decide), if_neg (by decide),
    if_neg (by decide), if_pos rfl]
  simp only [List.head?_cons, List.tail_cons, if_true]
  have hne1 : ¬ (((d :: ds) ++ '>' :: rest).head? = some '&') := by
    simp only [List.cons_append, List.head?_cons, Option.some.injEq]
    intro hcontra
    rw [hcontra] at hd
    exact Bool.noConfusion hd
  have hne2 : ¬ (((d :: ds) ++ '>' :: rest).head? = some '!') := by
    simp only [List.cons_append, List.head?_cons, Option.some.injEq]
    intro hcontra
    rw [hcontra] at hd
    exact Bool.noConfusion hd
  rw [if_neg hne1, if_neg hne2]
  simp only [mentionTail]
  rw [htd.1, htd.2]
  rw [if_pos ⟨by simp, rfl⟩]
  simp only [List.tail_cons]

/-- A rendered role mention lexes to one `RoleMention` token whose payload
is the digit run. -/
theorem lexCore_role_mention (pos : Nat) (n : Nat) (rest : List Char) :
    lexCore pos ('<' :: '@' :: '&' :: (charsOfNat n ++ '>' :: rest))
      = some (.inr (.RoleMention (String.mk (charsOfNat n))),
          pos + (charsOfNat n).length + 4, rest) := by
  obtain ⟨d, ds, hds⟩ : ∃ d ds, charsOfNat n = d :: ds := by
    cases h : charsOfNat n with
    | nil => exact absurd h (charsOfNat_ne_nil n)
    | cons d ds => exact ⟨d, ds, rfl⟩
  have hall : (d :: ds).all Char.isDigit = true := by
    rw [← hds]
    exact List.all_eq_true.mpr fun c hc => charsOfNat_isDigit n c hc
  have htd := takeWhile_dropWhile_append Char.isDigit (d :: ds) ('>' :: rest)
    hall (by rintro b t hb; injection hb with hb1 _; rw [← hb1]; decide)
  rw [hds]
  rw [lexCore, if_neg (by decide), if_neg (by decide), if_neg (by decide),
    if_neg (by decide), if_neg (by decide), if_neg (by decide),
    if_neg (by decide), if_pos rfl]
  simp only [List.head?_cons, List.tail_cons, if_true]
  simp only [mentionTail]
  rw [htd.1, htd.2]
  rw [if_pos ⟨by simp, rfl⟩]
  simp only [List.tail_cons]

/-- Re-lexing a rendered `GoodExpr` produces exactly its token stream: the
lexer output on `render e` followed by an admissible boundary is the token
list of `e` followed by the lexer output on the boundary. -/
theorem lexA_render : ∀ (e : Expr), GoodExpr e = true →
    ∀ (pos : Nat) (rest : List Char), bdryOk rest →
    ∃ q, lexA pos (render e ++ rest)
      = (toks e).map Sum.inr ++ lexA q rest := by
  intro e
  induction e with
  | Union l r ihl ihr =>
      intro hg pos rest hb
      simp only [GoodExpr, Bool.and_eq_true] at hg
      have hlist : render (Expr.Union l r) ++ rest
          = '(' :: (render l ++ (' ' :: '|' :: ' ' ::
              (render r ++ ')' :: rest))) := by
        rw [render]
        simp [List.cons_append, List.append_assoc]
      rw [hlist]
      have hstep1 : lexStep pos ('(' :: (render l ++ (' ' :: '|' :: ' ' ::
              (render r ++ ')' :: rest))))
          = some (.inr .LeftParen, pos + 1,
              render l ++ (' ' :: '|' :: ' ' :: (render r ++ ')' :: rest))) := by
        rw [lexStep_not_ws '(' (by decide), lexCore_lparen]
      rw [lexA_step hstep1]
      obtain ⟨q1, hq1⟩ := ihl hg.1 (pos + 1)
        (' ' :: '|' :: ' ' :: (render r ++ ')' :: rest)) (Or.inl rfl)
      rw [hq1]
      rw [lexA_ws (by decide : isWs ' ' = true) q1
        ('|' :: ' ' :: (render r ++ ')' :: rest))]
      have hstep2 : lexStep (q1 + 1) ('|' :: ' ' :: (render r ++ ')' :: rest))
          = some (.inr .Pipe, q1 + 1 + 1,
              ' ' :: (render r ++ ')' :: rest)) := by
        rw [lexStep_not_ws '|' (by decide), lexCore_pipe]
      rw [lexA_step hstep2]
      rw [lexA_ws (by decide : isWs ' ' = true) (q1 + 1 + 1)
        (render r ++ ')' :: rest)]
      obtain ⟨q2, hq2⟩ := ihr hg.2 (q1 + 1 + 1 + 1) (')' :: rest) (Or.inr rfl)
      rw [hq2]
      have hstep3 : lexStep q2 (')' :: rest)
          = some (.inr .RightParen, q2 + 1, rest) := by
        rw [lexStep_not_ws ')' (by decide), lexCore_rparen]
      rw [lexA_step hstep3]
      refine ⟨q2 + 1, ?_⟩
      simp [toks, List.map_append, List.cons_append, List.append_assoc]
  | Intersection l r ihl ihr =>
      intro hg pos rest hb
      simp only [GoodExpr, Bool.and_eq_true] at hg
      have hlist : render (Expr.Intersection l r) ++ rest
          = '(' :: (render l ++ (' ' :: '&' :: ' ' ::
              (render r ++ ')' :: rest))) := by
        rw [render]
        simp [List.cons_append, List.append_assoc]
      rw [hlist]
      have hstep1 : lexStep pos ('(' :: (render l ++ (' ' :: '&' :: ' ' ::
              (render r ++ ')' :: rest))))
          = some (.inr .LeftParen, pos + 1,
              render l ++ (' ' :: '&' :: ' ' :: (render r ++ ')' :: rest))) := by
        rw [lexStep_not_ws '(' (by decide), lexCore_lparen]
      rw [lexA_step hstep1]
      obtain ⟨q1, hq1⟩ := ihl hg.1 (pos + 1)
        (' ' :: '&' :: ' ' :: (render r ++ ')' :: rest)) (Or.inl rfl)
      rw [hq1]
      rw [lexA_ws (by decide : isWs ' ' = true) q1
        ('&' :: ' ' :: (render r ++ ')' :: rest))]
      have hstep2 : lexStep (q1 + 1) ('&' :: ' ' :: (render r ++ ')' :: rest))
          = some (.inr .Ampersand, q1 + 1 + 1,
              ' ' :: (render r ++ ')' :: rest)) := by
        rw [lexStep_not_ws '&' (by decide), lexCore_amp]
      rw [lexA_step hstep2]
      rw [lexA_ws (by decide : isWs ' ' = true) (q1 + 1 + 1)
        (render r ++ ')' :: rest)]
      obtain ⟨q2, hq2⟩ := ihr hg.2 (q1 + 1 + 1 + 1) (')' :: rest) (Or.inr rfl)
      rw [hq2]
      have hstep3 : lexStep q2 (')' :: rest)
          = some (.inr .RightParen, q2 + 1, rest) := by
        rw [lexStep_not_ws ')' (by decide), lexCore_rparen]
      rw [lexA_step hstep3]
      refine ⟨q2 + 1, ?_⟩
      simp [toks, List.map_append, List.cons_append, List.append_assoc]
  | Difference l r ihl ihr =>
      intro hg pos rest hb
      simp only [GoodExpr, Bool.and_eq_true] at hg
      have hlist : render (Expr.Difference l r) ++ rest
          = '(' :: (render l ++ (' ' :: '-' :: ' ' ::
              (render r ++ ')' :: rest))) := by
        rw [render]
        simp [List.cons_append, List.append_assoc]
      rw [hlist]
      have hstep1 : lexStep pos ('(' :: (render l ++ (' ' :: '-' :: ' ' ::
              (render r ++ ')' :: rest))))
          = some (.inr .LeftParen, pos + 1,
              render l ++ (' ' :: '-' :: ' ' :: (render r ++ ')' :: rest))) := by
        rw [lexStep_not_ws '(' (by decide), lexCore_lparen]
      rw [lexA_step hstep1]
      obtain ⟨q1, hq1⟩ := ihl hg.1 (pos + 1)
        (' ' :: '-' :: ' ' :: (render r ++ ')' :: rest)) (Or.inl rfl)
      rw [hq1]
      rw [lexA_ws (by decide : isWs ' ' = true) q1
        ('-' :: ' ' :: (render r ++ ')' :: rest))]
      have hstep2 : lexStep (q1 + 1) ('-' :: ' ' :: (render r ++ ')' :: rest))
          = some (.inr .Minus, q1 + 1 + 1,
              ' ' :: (render r ++ ')' :: rest)) := by
        rw [lexStep_not_ws '-' (by decide), lexCore_minus]
      rw [lexA_step hstep2]
      rw [lexA_ws (by decide : isWs ' ' = true) (q1 + 1 + 1)
        (render r ++ ')' :: rest)]
      obtain ⟨q2, hq2⟩ := ihr hg.2 (q1 + 1 + 1 + 1) (')' :: rest) (Or.inr rfl)
      rw [hq2]
      have hstep3 : lexStep q2 (')' :: rest)
          = some (.inr .RightParen, q2 + 1, rest) := by
        rw [lexStep_not_ws ')' (by decide), lexCore_rparen]
      rw [lexA_step hstep3]
      refine ⟨q2 + 1, ?_⟩
      simp [toks, List.map_append, List.cons_append, List.append_assoc]
  | StringLiteral s =>
      intro hg pos rest hb
      simp only [GoodExpr] at hg
      rw [goodStringChars.eq_def] at hg
      by_cases hbare : s.toList.all bareChar = true
      · rw [if_pos hbare] at hg
        cases hsl : s.toList with
        | nil =>
            rw [hsl] at hg
            exact absurd hg (by decide)
        | cons c cs =>
            rw [hsl] at hg
            replace hg : (!c.isDigit) = true := hg
            have hd : c.isDigit = false := by simpa using hg
            have hallb : s.toList.all bareChar = true := hbare
            rw [hsl] at hallb
            have hall : (c :: cs).all identChar = true := by
              rw [← bareChar_eq_identChar]
              exact hallb
            have hcb : bareChar c = true := by
              simp only [List.all_cons, Bool.and_eq_true] at hallb
              exact hallb.1
            have hids : identStart c = true := identStart_of_bare hcb hd
            have hrender : render (Expr.StringLiteral s) = c :: cs := by
              rw [render, if_pos hbare, hsl]
            rw [hrender]
            have hstep : lexStep pos ((c :: cs) ++ rest)
                = some (.inr (.StringLiteral (String.mk (c :: cs))),
                    pos + (c :: cs).length, rest) := by
              rw [List.cons_append]
              rw [lexStep_not_ws c (not_ws_of_identStart hids)]
              exact lexCore_ident pos c cs rest hids hd hall
                (bdry_not_identChar hb)
            rw [lexA_step hstep]
            refine ⟨pos + (c :: cs).length, ?_⟩
            have hmk : String.mk (c :: cs) = s := by
              rw [← hsl]
              cases s
              rfl
            rw [hmk]
            rfl
      · rw [if_neg hbare] at hg
        have hrender : render (Expr.StringLiteral s)
            = '"' :: s.toList ++ ['"'] := by
          rw [render, if_neg hbare]
        rw [hrender]
        have hlist : ('"' :: s.toList ++ ['"']) ++ rest
            = '"' :: (s.toList ++ '"' :: rest) := by
          simp [List.cons_append, List.append_assoc]
        rw [hlist]
        have hstep : lexStep pos ('"' :: (s.toList ++ '"' :: rest))
            = some (.inr (.StringLiteral (String.mk s.toList)),
                pos + s.toList.length + 2, rest) := by
          rw [lexStep_not_ws '"' (by decide)]
          exact lexCore_quoted pos s.toList rest hg
        rw [lexA_step hstep]
        exact ⟨pos + s.toList.length + 2, rfl⟩
  | UnknownID s =>
      intro hg pos rest hb
      simp only [GoodExpr, Bool.and_eq_true] at hg
      cases hsl : s.toList with
      | nil =>
          rw [hsl] at hg
          exact absurd hg.1 (by decide)
      | cons c cs =>
          have hall : (c :: cs).all Char.isDigit = true := by
            rw [← hsl]
            exact hg.2
          have hc : c.isDigit = true := by
            simp only [List.all_cons, Bool.and_eq_true] at hall
            exact hall.1
          have hrender : render (Expr.UnknownID s) = c :: cs := by
            rw [render, hsl]
          rw [hrender]
          have hstep : lexStep pos ((c :: cs) ++ rest)
              = some (.inr (.IDLiteral (String.mk (c :: cs))),
                  pos + (c :: cs).length, rest) := by
            rw [List.cons_append]
            rw [lexStep_not_ws c (not_ws_of_isDigit hc)]
            exact lexCore_digits pos c cs rest hall (bdry_not_digit hb)
          rw [lexA_step hstep]
          refine ⟨pos + (c :: cs).length, ?_⟩
          have hmk : String.mk (c :: cs) = s := by
            rw [← hsl]
            cases s
            rfl
          rw [hmk]
          rfl
  | UserID n =>
      intro _ pos rest hb
      have hrender : render (Expr.UserID n) ++ rest
          = '<' :: '@' :: (charsOfNat n ++ '>' :: rest) := by
        rw [render]
        simp [List.cons_append, List.append_assoc]
      rw [hrender]
      have hstep : lexStep pos ('<' :: '@' :: (charsOfNat n ++ '>' :: rest))
          = some (.inr (.UserMention (String.mk (charsOfNat n))),
              pos + (charsOfNat n).length + 3, rest) := by
        rw [lexStep_not_ws '<' (by decide)]
        exact lexCore_user_mention pos n rest
      rw [lexA_step hstep]
      exact ⟨pos + (charsOfNat n).length + 3, rfl⟩
  | RoleID n =>
      intro _ pos rest hb
      have hrender : render (Expr.RoleID n) ++ rest
          = '<' :: '@' :: '&' :: (charsOfNat n ++ '>' :: rest) := by
        rw [render]
        simp [List.cons_append, List.append_assoc]
      rw [hrender]
      have hstep : lexStep pos
          ('<' :: '@' :: '&' :: (charsOfNat n ++ '>' :: rest))
          = some (.inr (.RoleMention (String.mk (charsOfNat n))),
              pos + (charsOfNat n).length + 4, rest) := by
        rw [lexStep_not_ws '<' (by decide)]
        exact lexCore_role_mention pos n rest
      rw [lexA_step hstep]
      exact ⟨pos + (charsOfNat n).length + 4, rfl⟩

/-- Lexing the rendering of a `GoodExpr` yields exactly its token stream. -/
theorem tokenize_displayExpr (e : Expr) (hg : GoodExpr e = true) :
    tokenize (displayExpr e) = (toks e).map Sum.inr := by
  obtain ⟨q, hq⟩ := lexA_render e hg 0 [] True.intro
  rw [List.append_nil] at hq
  rw [show tokenize (displayExpr e) = lexA 0 (render e) from rfl, hq,
    lexA_nil, List.append_nil]

theorem allOk_map_inr : ∀ (ts : List Tok), allOk (ts.map Sum.inr) = some ts := by
  intro ts
  induction ts with
  | nil => rfl
  | cons t ts ih =>
      rw [List.map_cons]
      rw [show allOk (Sum.inr t :: ts.map Sum.inr)
          = (allOk (ts.map Sum.inr)).map (t :: ·) from rfl]
      rw [ih]
      rfl

/-- A whole-expression token stream parses from the `union` start symbol,
consuming every token. -/
theorem parseF_union_toks (e : Expr) (extra : Nat) :
    parseF (FA e + 3 + extra) .union (toks e) = some (e, []) := by
  have hA : parseF (FA e + 1 + extra) .atom (toks e) = some (e, []) := by
    have := parseF_atom_toks e (1 + extra) []
    rw [List.append_nil] at this
    rw [show FA e + 1 + extra = FA e + (1 + extra) from by omega]
    exact this
  have h1 : parseF (FA e + 2 + extra) .term (toks e) = some (e, []) := by
    rw [show FA e + 2 + extra = (FA e + 1 + extra) + 1 from by omega]
    rw [parseF_term_step _ _ hA]
    rw [show FA e + 1 + extra = (FA e + extra) + 1 from by omega]
    exact parseF_termLoop_stop _ _ _ (fun t rest h => absurd h (by simp))
  rw [show FA e + 3 + extra = (FA e + 2 + extra) + 1 from by omega]
  rw [parseF_union_step _ _ h1]
  rw [show FA e + 2 + extra = (FA e + 1 + extra) + 1 from by omega]
  exact parseF_unionLoop_stop _ _ _ (fun t rest h => absurd h (by simp))

/-- The fuel `parseDrql` supplies suffices for a whole-expression stream. -/
theorem FA_le_toks (e : Expr) : FA e + 3 ≤ 4 * (toks e).length + 4 := by
  induction e with
  | Union l r ihl ihr =>
      rw [FA, toks]
      simp only [List.length_cons, List.length_append]
      omega
  | Intersection l r ihl ihr =>
      rw [FA, toks]
      simp only [List.length_cons, List.length_append]
      omega
  | Difference l r ihl ihr =>
      rw [FA, toks]
      simp only [List.length_cons, List.length_append]
      omega
  | StringLiteral s =>
      rw [FA, toks]
      simp only [List.length_singleton]
      omega
  | UnknownID s =>
      rw [FA, toks]
      simp only [List.length_singleton]
      omega
  | UserID n =>
      rw [FA, toks]
      simp only [List.length_singleton]
      omega
  | RoleID n =>
      rw [FA, toks]
      simp only [List.length_singleton]
      omega

/-- Rendering a `GoodExpr` and re-parsing the rendering recovers the
tree. -/
theorem parseDrql_displayExpr (e : Expr) (hg : GoodExpr e = true) :
    parseDrql (displayExpr e) = some e := by
  unfold parseDrql
  rw [tokenize_displayExpr e hg, allOk_map_inr]
  have h : parseF (4 * (toks e).length + 4) .union (toks e)
      = some (e, []) := by
    have h0 := parseF_union_toks e (4 * (toks e).length + 4 - (FA e + 3))
    rw [show FA e + 3 + (4 * (toks e).length + 4 - (FA e + 3))
        = 4 * (toks e).length + 4 from by
          have := FA_le_toks e
          omega] at h0
    exact h0
  simp only [h]

/-! ## Claim theorems: unionize_set exact cover and redundancy (C1, C3)

The loop maintains: the cleared region `C` is exactly the union of the
chosen candidates' original member sets; every candidate whose original set
contains a chosen candidate's original set is fully covered by `C` (because
when a candidate is selected its residual has maximal cardinality, any
candidate originally containing it has the very same residual and is wiped
by the clearing step); hence no two chosen candidates are nested. -/

/-- The invariant of the greedy loop at a state where the bits of `C` have
been cleared, over the (filtered) candidate list `L`. -/
structure LoopInv {K V : Type} [DecidableEq K] [DecidableEq V]
    (L : List (K × Finset V)) (C : Finset V) (chosen : Finset K) : Prop where
  subC : ∀ kv ∈ L, kv.1 ∈ chosen → kv.2 ⊆ C
  keys : ∀ k ∈ chosen, ∃ S, (k, S) ∈ L
  eqU : C = chosenUnion L chosen
  covers : ∀ kv1 ∈ L, kv1.1 ∈ chosen →
    ∀ kv2 ∈ L, kv2.1 ≠ kv1.1 → kv1.2 ⊆ kv2.2 → kv2.2 ⊆ C
  nosub : ∀ kv1 ∈ L, ∀ kv2 ∈ L, kv1.1 ∈ chosen → kv2.1 ∈ chosen →
    kv1.1 ≠ kv2.1 → ¬ kv1.2 ⊆ kv2.2

theorem unionizeLoop_inv {K V : Type} [DecidableEq K] [DecidableEq V]
    (T : Finset V) (L : List (K × Finset V))
    (hnd : (L.map Prod.fst).Nodup) :
    ∀ (fuel : Nat) (C : Finset V) (chosen : Finset K),
      LoopInv L C chosen →
      ∃ C' chosen',
        unionizeLoop fuel (T \ C) (L.map fun kv => (kv.1, kv.2 \ C)) chosen
          = (chosen', T \ C')
        ∧ LoopInv L C' chosen' := by
  intro fuel
  induction fuel with
  | zero => intro C chosen hInv; exact ⟨C, chosen, rfl, hInv⟩
  | succ fuel ih =>
    intro C chosen hInv
    rw [unionizeLoop_succ]
    set l := L.map fun kv => (kv.1, kv.2 \ C) with hl
    by_cases hg : (l.any fun kv => decide kv.2.Nonempty) = true
    case neg =>
      rw [if_neg hg]
      exact ⟨C, chosen, rfl, hInv⟩
    case pos =>
      rw [if_pos hg]
      set ms := listMax (l.map fun kv => kv.2.card) with hms
      set tied := l.filter fun kv => kv.2.card = ms with htied_def
      obtain ⟨kv₁, hkv₁, hkv₁ne⟩ := List.any_eq_true.mp hg
      have hlne : l ≠ [] := List.ne_nil_of_mem hkv₁
      have hmem_max : ms ∈ l.map fun kv => kv.2.card := by
        apply listMax_mem
        simpa using hlne
      obtain ⟨kvm, hkvm, hkvmcard⟩ := List.mem_map.mp hmem_max
      have htne : tied ≠ [] :=
        List.ne_nil_of_mem (List.mem_filter.mpr ⟨hkvm, by simp [hkvmcard]⟩)
      obtain ⟨sel, hsel, hselmem⟩ := selectSet_mem htne
      rw [hsel]
      dsimp only
      have hself := List.mem_filter.mp hselmem
      obtain ⟨kv₀, hkv₀, hkv₀eq⟩ := List.mem_map.mp hself.1
      have hsel2 : sel.2 = kv₀.2 \ C := by rw [← hkv₀eq]
      have hselcard : sel.2.card = ms := by simpa using hself.2
      have hms1 : 1 ≤ ms := by
        have h1 : kv₁.2.card ≤ ms := le_listMax (List.mem_map_of_mem _ hkv₁)
        have hpos : 0 < kv₁.2.card :=
          Finset.card_pos.mpr (by simpa using hkv₁ne)
        omega
      have hselne : sel.2.Nonempty := Finset.card_pos.mp (by omega)
      have hnotin : kv₀.1 ∉ chosen := by
        intro hc
        have hsub := hInv.subC kv₀ hkv₀ hc
        have hempty : kv₀.2 \ C = ∅ := Finset.sdiff_eq_empty_iff_subset.mpr hsub
        rw [hsel2, hempty] at hselne
        exact Finset.not_nonempty_empty hselne
      have ht' : (T \ C) \ sel.2 = T \ (C ∪ kv₀.2) := by
        rw [hsel2]; exact sdiff_sdiff_clear T C kv₀.2
      have hl' : l.map (fun kv => (kv.1, kv.2 \ sel.2))
          = L.map fun kv => (kv.1, kv.2 \ (C ∪ kv₀.2)) := by
        rw [hl, List.map_map]
        have : ((fun kv : K × Finset V => (kv.1, kv.2 \ sel.2)) ∘
            fun kv : K × Finset V => (kv.1, kv.2 \ C))
            = fun kv : K × Finset V => (kv.1, kv.2 \ (C ∪ kv₀.2)) := by
          funext kv
          simp only [Function.comp_apply]
          rw [hsel2, sdiff_sdiff_clear]
        rw [this]
      have hins : insert sel.1 chosen = insert kv₀.1 chosen := by
        rw [← hkv₀eq]
      rw [ht', hl', hins]
      -- the invariant is preserved by the clearing step
      have hInv' : LoopInv L (C ∪ kv₀.2) (insert kv₀.1 chosen) := by
        refine ⟨?_, ?_, ?_, ?_, ?_⟩
        · -- subC
          intro kv hkv hc
          rcases Finset.mem_insert.mp hc with hceq | hc
          · have : kv = kv₀ := key_inj hnd hkv hkv₀ hceq
            rw [this]
            exact Finset.subset_union_right
          · exact (hInv.subC kv hkv hc).trans Finset.subset_union_left
        · -- keys
          intro k hk
          rcases Finset.mem_insert.mp hk with hkeq | hk
          · exact ⟨kv₀.2, by rw [hkeq]; simpa using hkv₀⟩
          · exact hInv.keys k hk
        · -- eqU
          ext x
          rw [Finset.mem_union, mem_chosenUnion]
          constructor
          · rintro (hx | hx)
            · rw [hInv.eqU] at hx
              obtain ⟨kv, hkv, hc, hx⟩ := mem_chosenUnion.mp hx
              exact ⟨kv, hkv, Finset.mem_insert_of_mem hc, hx⟩
            · exact ⟨kv₀, hkv₀, Finset.mem_insert_self _ _, hx⟩
          · rintro ⟨kv, hkv, hc, hx⟩
            rcases Finset.mem_insert.mp hc with hceq | hc
            · have : kv = kv₀ := key_inj hnd hkv hkv₀ hceq
              exact Or.inr (this ▸ hx)
            · exact Or.inl (by rw [hInv.eqU]
                               exact mem_chosenUnion.mpr ⟨kv, hkv, hc, hx⟩)
        · -- covers
          intro kv1 hkv1 hc1 kv2 hkv2 hne hsub
          rcases Finset.mem_insert.mp hc1 with hceq | hc1
          · have hkv1eq : kv1 = kv₀ := key_inj hnd hkv1 hkv₀ hceq
            rw [hkv1eq] at hsub hne
            have hmem2 : (kv2.1, kv2.2 \ C) ∈ l := by
              rw [hl]; exact List.mem_map_of_mem _ hkv2
            have hcard2 : (kv2.2 \ C).card ≤ ms := by
              have : ((kv2.1, kv2.2 \ C)).2.card
                  ∈ l.map fun kv => kv.2.card :=
                List.mem_map_of_mem _ hmem2
              exact le_listMax this
            have hsubres : sel.2 ⊆ kv2.2 \ C := by
              rw [hsel2]
              exact Finset.sdiff_subset_sdiff hsub (subset_refl C)
            have hresEq : sel.2 = kv2.2 \ C :=
              Finset.eq_of_subset_of_card_le hsubres (by omega)
            intro x hx
            by_cases hxC : x ∈ C
            · exact Finset.mem_union_left _ hxC
            · have hxres : x ∈ kv2.2 \ C := Finset.mem_sdiff.mpr ⟨hx, hxC⟩
              rw [← hresEq, hsel2] at hxres
              exact Finset.mem_union_right _ (Finset.mem_sdiff.mp hxres).1
          · exact (hInv.covers kv1 hkv1 hc1 kv2 hkv2 hne hsub).trans
              Finset.subset_union_left
        · -- nosub
          intro kv1 hkv1 kv2 hkv2 hc1 hc2 hne hsub
          rcases Finset.mem_insert.mp hc1 with hceq1 | hc1 <;>
            rcases Finset.mem_insert.mp hc2 with hceq2 | hc2
          · exact hne (hceq1.trans hceq2.symm)
          · -- kv1 is the new candidate, kv2 an old one
            have hkv1eq : kv1 = kv₀ := key_inj hnd hkv1 hkv₀ hceq1
            have hsubC : kv2.2 ⊆ C := hInv.subC kv2 hkv2 hc2
            have : kv₀.2 ⊆ C := (hkv1eq ▸ hsub).trans hsubC
            have hempty : kv₀.2 \ C = ∅ :=
              Finset.sdiff_eq_empty_iff_subset.mpr this
            rw [hsel2, hempty] at hselne
            exact Finset.not_nonempty_empty hselne
          · -- kv2 is the new candidate, kv1 an old one
            have hkv2eq : kv2 = kv₀ := key_inj hnd hkv2 hkv₀ hceq2
            have hne' : kv₀.1 ≠ kv1.1 := by
              intro h
              apply hne
              rw [hkv2eq, ← h]
            have hcov : kv₀.2 ⊆ C :=
              hInv.covers kv1 hkv1 hc1 kv₀ hkv₀ hne' (hkv2eq ▸ hsub)
            have hempty : kv₀.2 \ C = ∅ :=
              Finset.sdiff_eq_empty_iff_subset.mpr hcov
            rw [hsel2, hempty] at hselne
            exact Finset.not_nonempty_empty hselne
          · exact hInv.nosub kv1 hkv1 kv2 hkv2 hc1 hc2 hne hsub
      exact ih (C ∪ kv₀.2) (insert kv₀.1 chosen) hInv'

/-- `unionize_set` lands in a state satisfying the loop invariant. -/
theorem unionize_set_spec {K V : Type} [DecidableEq K] [DecidableEq V]
    (target : Finset V) (pre : List (K × Finset V))
    (hnd : (pre.map Prod.fst).Nodup) :
    ∃ C' chosen',
      unionize_set target pre = ⟨chosen', target \ C'⟩
      ∧ LoopInv (filtered_preexisting_sets target pre) C' chosen' := by
  have hndL : ((filtered_preexisting_sets target pre).map Prod.fst).Nodup :=
    List.Nodup.sublist ((List.filter_sublist _).map Prod.fst) hnd
  have h0 : LoopInv (filtered_preexisting_sets target pre) ∅
      (∅ : Finset K) := by
    refine ⟨by simp, by simp, ?_, by simp, by simp⟩
    ext x
    simp [mem_chosenUnion]
  obtain ⟨C', chosen', heq, hInv⟩ := unionizeLoop_inv target
    (filtered_preexisting_sets target pre) hndL
    ((((filtered_preexisting_sets target pre).map fun kv => kv.2.card).sum) + 1)
    ∅ ∅ h0
  rw [Finset.sdiff_empty] at heq
  have hmap : (filtered_preexisting_sets target pre).map
      (fun kv => (kv.1, kv.2 \ (∅ : Finset V)))
      = filtered_preexisting_sets target pre := by
    simp
  rw [hmap] at heq
  refine ⟨C', chosen', ?_, hInv⟩
  calc unionize_set target pre
      = ⟨(unionizeLoop ((((filtered_preexisting_sets target pre).map
          fun kv => kv.2.card).sum) + 1) target
          (filtered_preexisting_sets target pre) ∅).1,
         (unionizeLoop ((((filtered_preexisting_sets target pre).map
          fun kv => kv.2.card).sum) + 1) target
          (filtered_preexisting_sets target pre) ∅).2⟩ := rfl
    _ = ⟨chosen', target \ C'⟩ := by rw [heq]

/-- C1: the union of the chosen candidates' member sets together with the
outliers is exactly the target, and every chosen candidate's member set is
a subset of the target. -/
theorem unionize_set_exact_cover {K V : Type} [DecidableEq K] [DecidableEq V]
    (target : Finset V) (pre : List (K × Finset V))
    (hnd : (pre.map Prod.fst).Nodup) :
    chosenUnion pre (unionize_set target pre).sets
        ∪ (unionize_set target pre).outliers = target
    ∧ ∀ kv ∈ pre, kv.1 ∈ (unionize_set target pre).sets → kv.2 ⊆ target := by
  obtain ⟨C', chosen', heq, hInv⟩ := unionize_set_spec target pre hnd
  rw [heq]
  dsimp only
  have hsubT : ∀ kv ∈ filtered_preexisting_sets target pre,
      kv.2 ⊆ target := by
    intro kv hkv
    have := (List.mem_filter.mp hkv).2
    simpa using this
  have hUeq : chosenUnion pre chosen' = C' := by
    rw [hInv.eqU]
    ext x
    rw [mem_chosenUnion, mem_chosenUnion]
    constructor
    · rintro ⟨kv, hkv, hc, hx⟩
      obtain ⟨S, hS⟩ := hInv.keys kv.1 hc
      have hkveq : kv = (kv.1, S) :=
        key_inj hnd hkv (List.mem_of_mem_filter hS) rfl
      refine ⟨(kv.1, S), hS, hc, ?_⟩
      rw [← hkveq]
      exact hx
    · rintro ⟨kv, hkv, hc, hx⟩
      exact ⟨kv, List.mem_of_mem_filter hkv, hc, hx⟩
  have hC'T : C' ⊆ target := by
    rw [hInv.eqU]
    intro x hx
    obtain ⟨kv, hkv, hc, hx⟩ := mem_chosenUnion.mp hx
    exact hsubT kv hkv hx
  constructor
  · rw [hUeq]
    exact Finset.union_sdiff_of_subset hC'T
  · intro kv hkv hc
    obtain ⟨S, hS⟩ := hInv.keys kv.1 hc
    have hkveq : kv = (kv.1, S) :=
      key_inj hnd hkv (List.mem_of_mem_filter hS) rfl
    rw [hkveq]
    exact hsubT (kv.1, S) hS

theorem unionize_set_exact_cover_witness :
    (([((0 : Nat), ({1, 2} : Finset Nat)), (1, {2, 5})].map Prod.fst).Nodup)
    ∧ (chosenUnion [((0 : Nat), ({1, 2} : Finset Nat)), (1, {2, 5})]
          (unionize_set ({1, 2, 3} : Finset Nat)
            [((0 : Nat), ({1, 2} : Finset Nat)), (1, {2, 5})]).sets
        ∪ (unionize_set ({1, 2, 3} : Finset Nat)
            [((0 : Nat), ({1, 2} : Finset Nat)), (1, {2, 5})]).outliers
        = ({1, 2, 3} : Finset Nat)
      ∧ ∀ kv ∈ [((0 : Nat), ({1, 2} : Finset Nat)), (1, {2, 5})],
          kv.1 ∈ (unionize_set ({1, 2, 3} : Finset Nat)
            [((0 : Nat), ({1, 2} : Finset Nat)), (1, {2, 5})]).sets →
          kv.2 ⊆ ({1, 2, 3} : Finset Nat)) :=
  ⟨by decide, unionize_set_exact_cover ({1, 2, 3} : Finset Nat)
    [((0 : Nat), ({1, 2} : Finset Nat)), (1, {2, 5})] (by decide)⟩

/-- C3: among the chosen keys, no candidate's original member set is a
subset of another chosen candidate's original member set. -/
theorem unionize_set_chosen_not_nested {K V : Type} [DecidableEq K]
    [DecidableEq V] (target : Finset V) (pre : List (K × Finset V))
    (hnd : (pre.map Prod.fst).Nodup) :
    ∀ kv1 ∈ pre, ∀ kv2 ∈ pre,
      kv1.1 ∈ (unionize_set target pre).sets →
      kv2.1 ∈ (unionize_set target pre).sets →
      kv1.1 ≠ kv2.1 → ¬ kv1.2 ⊆ kv2.2 := by
  obtain ⟨C', chosen', heq, hInv⟩ := unionize_set_spec target pre hnd
  intro kv1 hkv1 kv2 hkv2 hc1 hc2 hne
  rw [heq] at hc1 hc2
  dsimp only at hc1 hc2
  obtain ⟨S1, hS1⟩ := hInv.keys kv1.1 hc1
  obtain ⟨S2, hS2⟩ := hInv.keys kv2.1 hc2
  have h1 : kv1 = (kv1.1, S1) :=
    key_inj hnd hkv1 (List.mem_of_mem_filter hS1) rfl
  have h2 : kv2 = (kv2.1, S2) :=
    key_inj hnd hkv2 (List.mem_of_mem_filter hS2) rfl
  rw [h1, h2]
  exact hInv.nosub (kv1.1, S1) hS1 (kv2.1, S2) hS2 hc1 hc2 hne

theorem unionize_set_chosen_not_nested_witness :
    (([((0 : Nat), ({1, 2} : Finset Nat)), (1, {3, 4})].map Prod.fst).Nodup
      ∧ ((0 : Nat), ({1, 2} : Finset Nat))
          ∈ [((0 : Nat), ({1, 2} : Finset Nat)), (1, {3, 4})]
      ∧ ((1 : Nat), ({3, 4} : Finset Nat))
          ∈ [((0 : Nat), ({1, 2} : Finset Nat)), (1, {3, 4})]
      ∧ (0 : Nat) ∈ (unionize_set ({1, 2, 3, 4} : Finset Nat)
          [((0 : Nat), ({1, 2} : Finset Nat)), (1, {3, 4})]).sets
      ∧ (1 : Nat) ∈ (unionize_set ({1, 2, 3, 4} : Finset Nat)
          [((0 : Nat), ({1, 2} : Finset Nat)), (1, {3, 4})]).sets
      ∧ (0 : Nat) ≠ 1)
    ∧ ¬ ({1, 2} : Finset Nat) ⊆ ({3, 4} : Finset Nat) :=
  ⟨⟨by decide, by decide, by decide, by decide, by decide, by decide⟩,
    unionize_set_chosen_not_nested ({1, 2, 3, 4} : Finset Nat)
      [((0 : Nat), ({1, 2} : Finset Nat)), (1, {3, 4})] (by decide)
      ((0 : Nat), ({1, 2} : Finset Nat)) (by decide)
      ((1 : Nat), ({3, 4} : Finset Nat)) (by decide)
      (by decide) (by decide) (by decide)⟩

theorem unionize_set_deterministic_witness :
    (({1, 2} : Finset Nat) = {1, 2})
    ∧ ([((0 : Nat), ({1} : Finset Nat))] = [((0 : Nat), ({1} : Finset Nat))])
    ∧ unionize_set ({1, 2} : Finset Nat) [((0 : Nat), ({1} : Finset Nat))]
      = unionize_set ({1, 2} : Finset Nat) [((0 : Nat), ({1} : Finset Nat))] :=
  ⟨rfl, rfl, unionize_set_deterministic _ _ _ _ rfl rfl⟩

/-! ## Claim theorems: the render/re-parse round trip (C2)

The round trip fails in general, under both readings of the claim:
`parse_drql` parses the quoted input `"123"` to `StringLiteral "123"`,
`Display` renders that tree as the bare digits `123` (every character is
in `[A-Za-z0-9_]`, so the payload is not quoted), and the rendering
re-lexes as an `IDLiteral` and re-parses as `UnknownID "123"` — not a
structurally equal tree.  (Payloads that render quoted also break when
they contain an unescaped `"` or end in a dangling `\`, since `Display`
does not escape.)  The round trip is proven on the `GoodExpr` trees:
all-bare `StringLiteral` payloads that are nonempty and not digit-initial,
non-bare `StringLiteral` payloads whose body re-lexes as one literal
(`unitsOk`), and `UnknownID` payloads that are nonempty digit runs. -/

/-- C2 counterexample: the quoted input `"123"` parses successfully, to
`StringLiteral "123"`; rendering that tree and re-parsing the rendering
yields `UnknownID "123"`, not a structurally equal tree.  This refutes
both the for-every-`Expr` clause and the for-every-successfully-parsed
-input clause of the claim. -/
theorem render_reparse_counterexample :
    parseDrql (String.mk ('"' :: '1' :: '2' :: '3' :: '"' :: []))
      = some (Expr.StringLiteral "123")
    ∧ parseDrql (displayExpr (Expr.StringLiteral "123"))
      = some (Expr.UnknownID "123")
    ∧ Expr.UnknownID "123" ≠ Expr.StringLiteral "123" := by
  exact ⟨by decide, by decide, by decide⟩

/-- C2 (amended): rendering via `Display` and re-parsing with `parse_drql`
succeeds and yields a structurally equal tree for every `GoodExpr` tree,
that is: every `StringLiteral` payload consisting only of `[A-Za-z0-9_]`
characters is nonempty and does not start with a digit; every
`StringLiteral` payload containing a character outside `[A-Za-z0-9_]` has
no unescaped quote and no dangling final backslash; and every `UnknownID`
payload is a nonempty digit run.  Trees outside this class — which
`parse_drql` can itself produce — need not round-trip. -/
theorem render_reparse_roundtrip (e : Expr) (hg : GoodExpr e = true) :
    parseDrql (displayExpr e) = some e :=
  parseDrql_displayExpr e hg

theorem render_reparse_roundtrip_witness :
    GoodExpr (Expr.Union (Expr.StringLiteral "a") (Expr.UserID 5)) = true
    ∧ parseDrql (displayExpr
        (Expr.Union (Expr.StringLiteral "a") (Expr.UserID 5)))
      = some (Expr.Union (Expr.StringLiteral "a") (Expr.UserID 5)) :=
  ⟨by decide, render_reparse_roundtrip
    (Expr.Union (Expr.StringLiteral "a") (Expr.UserID 5)) (by decide)⟩

end Intersection
